import Mathlib

/-!
Shallow embedding of the pyxray unified call-graph engine
(`scripts/reach_sane.py`, `scripts/call_chain.py`,
`scripts/unify_cg_all_binary.py`, `scripts/stitch.py`,
`scripts/augment_partial_cg.py`) and proofs about the frozen claims.

Python dictionaries are modelled as association lists with unique keys in
insertion order (`updD` updates in place or appends, like `d[k] = v`);
exceptions are modelled with `Except`.

Layout: all definitions first, then all theorems.
-/

namespace PyXray

/-! # Definitions -/

/-! ## Association-list dictionaries -/

/-- Lookup in an association list (first binding wins; lists built with
`updD` have unique keys, so this is Python dict lookup). -/
def getD {α β : Type} [DecidableEq α] (d : List (α × β)) (k : α) : Option β :=
  (d.find? (fun p => p.1 = k)).map (·.2)

/-- Python dict assignment `d[k] = v`: update the binding in place, keeping
key order, or append a fresh binding at the end. -/
def updD {α β : Type} [DecidableEq α] : List (α × β) → α → β → List (α × β)
  | [], k, v => [(k, v)]
  | p :: rest, k, v => if p.1 = k then (k, v) :: rest else p :: updD rest k v

/-! ## Graph reachability (models `networkx` descendants as used by
`ReachabilityDetector.calculate_reachable`). -/

/-- Targets of edges whose source lies in `S`. -/
def succsOf (E : List (Nat × Nat)) (S : Finset Nat) : Finset Nat :=
  ((E.filter (fun e => e.1 ∈ S)).map (·.2)).toFinset

/-- One closure round: add all direct successors. -/
def stepR (E : List (Nat × Nat)) (S : Finset Nat) : Finset Nat := S ∪ succsOf E S

/-- Iterate `stepR` k times. -/
def iterR (E : List (Nat × Nat)) : Nat → Finset Nat → Finset Nat
  | 0, S => S
  | k + 1, S => iterR E k (stepR E S)

/-- All nodes reachable from the set `S` by following edges of `E`
(entry points together with their graph descendants). `E.length + 1`
rounds always suffice to saturate. -/
def reachableFrom (E : List (Nat × Nat)) (S : Finset Nat) : Finset Nat :=
  iterR E (E.length + 1) S

/-! ## Unified call-graph documents and the reachability detector
(`scripts/reach_sane.py`). -/

/-- Node of a unified call graph: `name`, optional `package`
(interpreted-side owner, `name:version`) and optional `library`
(native-side owner). -/
structure UNode where
  name : String
  package : Option String
  library : Option String
deriving DecidableEq

/-- Unified call-graph document: integer-indexed node table and edge list.
JSON dict keys appear in insertion order. -/
structure UniDoc where
  nodes : List (Nat × UNode)
  edges : List (Nat × Nat)
deriving DecidableEq

/-- Package-identity check and normalization performed by
`ReachabilityDetector.__init__` (lines 73-80): a `name:version` identity is
kept, an `owner/repo` identity gets `:1` appended, anything else raises
`ValueError`.  Returns the normalized identity and the `pypi` flag. -/
def checkPackage (package : String) : Except String (String × Bool) :=
  if ':' ∈ package.data then Except.ok (package, true)
  else if '/' ∈ package.data then Except.ok (package ++ ":1", false)
  else Except.error "Unrecognized package naming format"

/-- Map-building loop of `ReachabilityDetector.create_graph` (lines 144-159):
builds `n2pkg` (names of package-owned nodes to their package) and `n2idx`
(every node name to its index); a node with neither library nor package
raises `RuntimeError`. Later nodes overwrite earlier bindings of the same
name, exactly like the Python dict assignments. -/
def buildMaps : List (Nat × UNode) → List (String × String) → List (String × Nat) →
    Except String (List (String × String) × List (String × Nat))
  | [], n2pkg, n2idx => Except.ok (n2pkg, n2idx)
  | p :: rest, n2pkg, n2idx =>
    match p.2.library with
    | some _ => buildMaps rest n2pkg (updD n2idx p.2.name p.1)
    | none =>
      match p.2.package with
      | some pk => buildMaps rest (updD n2pkg p.2.name pk) (updD n2idx p.2.name p.1)
      | none => Except.error "node has neither library nor package"

/-- Entry-point set of `ReachabilityDetector.find_entrypoints` (lines
121-128): indices `n2idx[name]` of every `n2pkg` binding whose package
equals the identity. -/
def entrypoints (n2pkg : List (String × String)) (n2idx : List (String × Nat))
    (package : String) : Finset Nat :=
  ((n2pkg.filter (fun q => q.2 = package)).filterMap (fun q => getD n2idx q.1)).toFinset

/-- Node/edge filtering of `ReachabilityDetector.generate_final_callgraph`
(lines 98-108): keep nodes in the reachable set and edges with both
endpoints reachable. -/
def generateFinal (doc : UniDoc) (r : Finset Nat) : UniDoc :=
  { nodes := doc.nodes.filter (fun p => p.1 ∈ r),
    edges := doc.edges.filter (fun e => e.1 ∈ r ∧ e.2 ∈ r) }

/-- Whole `ReachabilityDetector.reach` pipeline on an in-memory document:
identity check, map construction, entry points, reachable set, final
filtered graph. -/
def reachRun (doc : UniDoc) (package : String) : Except String UniDoc := do
  let (pkg, _) ← checkPackage package
  let (n2pkg, n2idx) ← buildMaps doc.nodes [] []
  let entry := entrypoints n2pkg n2idx pkg
  let r := reachableFrom doc.edges entry
  Except.ok (generateFinal doc r)

/-! ## Walks and shortest paths (models `nx.shortest_path` as called by
`ChainCalculator.find_callchains`). -/

/-- Successors of `n` along the edge list `E`. -/
def succsE (E : List (Nat × Nat)) (n : Nat) : List Nat :=
  (E.filter (fun e => e.1 = n)).map (·.2)

/-- All walks with exactly `k` edges starting at `src`, each stored in
reverse (current endpoint first, `src` last). -/
def walksRev (E : List (Nat × Nat)) (src : Nat) : Nat → List (List Nat)
  | 0 => [[src]]
  | k + 1 => (walksRev E src k).flatMap (fun w =>
      match w with
      | [] => []
      | c :: rest => (succsE E c).map (fun v => v :: c :: rest))

/-- A reversed walk starting (in forward orientation) at `src`: the list
ends with `src` and every adjacent pair is a forward edge of `E`. -/
def IsWalkRev (E : List (Nat × Nat)) (src : Nat) : List Nat → Prop
  | [] => False
  | [c] => c = src
  | v :: c :: rest => (c, v) ∈ E ∧ IsWalkRev E src (c :: rest)

/-- Breadth-bounded shortest-path search: try walk lengths `k`, `k+1`, ...
while fuel lasts; return the first (hence shortest) walk from `src` that
ends at `dst`, in forward orientation. -/
def spSearch (E : List (Nat × Nat)) (src dst : Nat) : Nat → Nat → Option (List Nat)
  | 0, _ => none
  | fuel + 1, k =>
    match (walksRev E src k).find? (fun w => w.head? == some dst) with
    | some w => some w.reverse
    | none => spSearch E src dst fuel (k + 1)

/-- Shortest path from `src` to `dst` along `E` (a shortest walk never
repeats a node, hence never an edge, so `E.length + 2` rounds starting at
length 0 cover every reachable target). Returns the node list in forward
order, or `none` when `dst` is unreachable — the behaviour of
`nx.shortest_path` up to tie-breaking. -/
def shortestPath (E : List (Nat × Nat)) (src dst : Nat) : Option (List Nat) :=
  spSearch E src dst (E.length + 2) 0

/-! ## Call-chain / centrality calculator (`scripts/call_chain.py`). -/

/-- Node insertion as done by `networkx` (`add_node` / implicit `add_edge`
endpoints): append if not yet present, keeping insertion order. -/
def insertNode (l : List Nat) (n : Nat) : List Nat := if n ∈ l then l else l ++ [n]

/-- Iteration order of the graph nodes built by
`ChainCalculator.create_graph`: first every node of the document, then any
edge endpoint not yet present. -/
def graphNodeList (doc : UniDoc) : List Nat :=
  doc.edges.foldl (fun acc e => insertNode (insertNode acc e.1) e.2)
    (doc.nodes.foldl (fun acc p => insertNode acc p.1) [])

/-- Index recorded for the target symbol by `ChainCalculator.create_graph`
(line 109-110): the last document node whose name equals the symbol, or
`none` when the symbol is absent. -/
def symbolIdx (doc : UniDoc) (sym : String) : Option Nat :=
  doc.nodes.foldl (fun acc p => if p.2.name = sym then some p.1 else acc) none

/-- Edge list of the reversed graph (`self.graph.reverse()`). -/
def revEdges (E : List (Nat × Nat)) : List (Nat × Nat) := E.map (fun e => (e.2, e.1))

/-- Zero out-degree in the reversed graph, i.e. zero in-degree in the
original graph (`G.out_degree(node) == 0` test at line 132). -/
def isLeaf (E : List (Nat × Nat)) (n : Nat) : Bool := E.all (fun e => e.2 ≠ n)

/-- Root call sites considered by `ChainCalculator.find_callchains`: the
graph nodes with zero in-degree in the original graph. -/
def rootsOf (doc : UniDoc) : List Nat := (graphNodeList doc).filter (isLeaf doc.edges)

/-- `ChainCalculator.find_callchains` (lines 125-142): for every root try a
shortest path from the symbol to the root in the reversed graph; each found
path, reversed, is a call chain; centrality is `len(chains) / num_leaves`,
which raises `ZeroDivisionError` when there are no roots. -/
def findCallchains (doc : UniDoc) (symIdx : Nat) : Except String (List (List Nat) × ℚ) :=
  let roots := rootsOf doc
  let paths := roots.filterMap (fun r => shortestPath (revEdges doc.edges) symIdx r)
  let chains := paths.map List.reverse
  if roots.length = 0 then Except.error "ZeroDivisionError"
  else Except.ok (chains, (chains.length : ℚ) / (roots.length : ℚ))

/-- `ChainCalculator.process` (lines 144-158) up to chain naming: symbol
absent means "no chains, centrality left at 0", otherwise forward to
`findCallchains`.  (The pretty-printing of chains as name strings and the
sort by length, lines 153-158, attach names to the same chains and do not
affect the claims.) -/
def processChains (doc : UniDoc) (sym : String) : Except String (List (List Nat) × ℚ) :=
  match symbolIdx doc sym with
  | none => Except.ok ([], 0)
  | some i => findCallchains doc i

/-! ## Native library merger (`scripts/unify_cg_all_binary.py`). -/

/-- Bridge metadata entry attached to an interpreted-side node
(`{'symbol': ..., 'library': ...}`). -/
structure Bridge where
  symbol : String
  library : String
deriving DecidableEq

/-- Node of the stitched interpreted-side graph consumed by the merger:
`URI`, owning package and optional bridge list. -/
structure PyCGNode where
  uri : String
  package : String
  bridges : Option (List Bridge)
deriving DecidableEq

/-- Stitched interpreted-side call graph (`Unifier.load_pycg`). -/
structure PyCGDoc where
  nodes : List (Nat × PyCGNode)
  edges : List (Nat × Nat)
deriving DecidableEq

/-- Native per-library call-graph document. -/
structure SoCG where
  library : String
  nodes : List (Nat × String)
  edges : List (Nat × Nat)
deriving DecidableEq

/-- Mutable state of `Unifier`: fresh-index counter, final node/edge
lists, name/index maps and the per-name per-library egress counts. -/
structure UnifierSt where
  nextIndex : Nat
  finalNodes : List (Nat × UNode)
  finalEdges : List (Nat × Nat)
  n2idx : List (String × Nat)
  idx2n : List (Nat × String)
  egress : List (String × List (String × Int))
deriving DecidableEq

/-- Fresh `Unifier` state (`Unifier.__init__`). -/
def initSt : UnifierSt := UnifierSt.mk 0 [] [] [] [] []

/-- Assignment `egress_per_name_per_lib[name][lib] = c` with
`defaultdict(dict)` semantics for the outer dict. -/
def egSet (eg : List (String × List (String × Int))) (name lib : String) (c : Int) :
    List (String × List (String × Int)) :=
  updD eg name (updD ((getD eg name).getD []) lib c)

/-- Egress-count lookup `egress_per_name_per_lib[name].get(lib)`. -/
def egGet (eg : List (String × List (String × Int))) (name lib : String) : Option Int :=
  getD ((getD eg name).getD []) lib

/-- The `+= 1` / `= 1` edge-count bump of `Unifier.load_socgs`
(lines 116-119). -/
def egBump (eg : List (String × List (String × Int))) (name lib : String) :
    List (String × List (String × Int)) :=
  match egGet eg name lib with
  | some c => egSet eg name lib (c + 1)
  | none => egSet eg name lib 1

/-- Node loop of `Unifier.load_socgs` (lines 95-106): dedup by name,
allocate fresh global ids, record `old2new` and zero the egress count. -/
def loadSocgNodes (lib : String) : List (Nat × String) → UnifierSt → List (Nat × Nat) →
    UnifierSt × List (Nat × Nat)
  | [], st, o2n => (st, o2n)
  | kv :: rest, st, o2n =>
    match getD st.n2idx kv.2 with
    | none =>
      loadSocgNodes lib rest
        (UnifierSt.mk (st.nextIndex + 1)
          (st.finalNodes ++ [(st.nextIndex, UNode.mk kv.2 none (some lib))])
          st.finalEdges
          (updD st.n2idx kv.2 st.nextIndex)
          (updD st.idx2n st.nextIndex kv.2)
          (egSet st.egress kv.2 lib 0))
        (updD o2n kv.1 st.nextIndex)
    | some i =>
      loadSocgNodes lib rest
        (UnifierSt.mk st.nextIndex st.finalNodes st.finalEdges st.n2idx st.idx2n
          (egSet st.egress kv.2 lib 0))
        (updD o2n kv.1 i)

/-- Edge loop of `Unifier.load_socgs` (lines 109-119): re-point via
`old2new` (a missing endpoint is a Python `KeyError`), append the edge and
bump the source name's egress count for this library. -/
def loadSocgEdges (lib : String) (o2n : List (Nat × Nat)) :
    List (Nat × Nat) → UnifierSt → Except String UnifierSt
  | [], st => Except.ok st
  | e :: rest, st =>
    match getD o2n e.1, getD o2n e.2 with
    | some ns, some nd =>
      match getD st.idx2n ns with
      | some srcname =>
        loadSocgEdges lib o2n rest
          (UnifierSt.mk st.nextIndex st.finalNodes (st.finalEdges ++ [(ns, nd)])
            st.n2idx st.idx2n (egBump st.egress srcname lib))
      | none => Except.error "KeyError idx2n"
    | _, _ => Except.error "KeyError old2new"

/-- Process one shared-object call graph. -/
def loadSocg (st : UnifierSt) (socg : SoCG) : Except String UnifierSt :=
  match loadSocgNodes socg.library socg.nodes st [] with
  | (st1, o2n) => loadSocgEdges socg.library o2n socg.edges st1

/-- Process all shared-object call graphs in order (`Unifier.load_socgs`). -/
def loadSocgs : List SoCG → UnifierSt → Except String UnifierSt
  | [], st => Except.ok st
  | socg :: rest, st =>
    match loadSocg st socg with
    | Except.ok st' => loadSocgs rest st'
    | Except.error e => Except.error e

/-- Bridge loop inside `Unifier.process_pycg` (lines 132-142): for each
bridge whose hop symbol is a known node name, add an edge from the new
node to the hop and set the (symbol, library) egress count to the
sentinel `-1`; an unknown hop symbol is dropped with a warning. -/
def processBridges (newIdx : Nat) : List Bridge → UnifierSt → UnifierSt
  | [], st => st
  | b :: rest, st =>
    match getD st.n2idx b.symbol with
    | some hopIdx =>
      processBridges newIdx rest
        (UnifierSt.mk st.nextIndex st.finalNodes (st.finalEdges ++ [(newIdx, hopIdx)])
          st.n2idx st.idx2n (egSet st.egress b.symbol b.library (-1)))
    | none => processBridges newIdx rest st

/-- Node loop of `Unifier.process_pycg` (lines 124-142): every
interpreted-side node gets a fresh global id unconditionally; its bridges
are processed right after it is registered. -/
def processPycgNodes : List (Nat × PyCGNode) → UnifierSt → List (Nat × Nat) →
    UnifierSt × List (Nat × Nat)
  | [], st, o2n => (st, o2n)
  | kv :: rest, st, o2n =>
    let newIdx := st.nextIndex
    let st1 : UnifierSt :=
      UnifierSt.mk (newIdx + 1)
        (st.finalNodes ++ [(newIdx, UNode.mk kv.2.uri (some kv.2.package) none)])
        st.finalEdges
        (updD st.n2idx kv.2.uri newIdx)
        (updD st.idx2n newIdx kv.2.uri)
        st.egress
    let st2 := match kv.2.bridges with
      | some bs => processBridges newIdx bs st1
      | none => st1
    processPycgNodes rest st2 (updD o2n kv.1 newIdx)

/-- Edge loop of `Unifier.process_pycg` (lines 144-149). -/
def processPycgEdges (o2n : List (Nat × Nat)) :
    List (Nat × Nat) → UnifierSt → Except String UnifierSt
  | [], st => Except.ok st
  | e :: rest, st =>
    match getD o2n e.1, getD o2n e.2 with
    | some ns, some nd =>
      processPycgEdges o2n rest
        (UnifierSt.mk st.nextIndex st.finalNodes (st.finalEdges ++ [(ns, nd)])
          st.n2idx st.idx2n st.egress)
    | _, _ => Except.error "KeyError old2new"

/-- `Unifier.process_pycg`. -/
def processPycg (pycg : PyCGDoc) (st : UnifierSt) : Except String UnifierSt :=
  match processPycgNodes pycg.nodes st [] with
  | (st1, o2n) => processPycgEdges o2n pycg.edges st1

/-- First entry attaining the minimal count — the head of Python's stable
`sorted(..., key=value)` in `Unifier.decide_final_libs`.  (The branch on a
`-1` sentinel at lines 157-160 is dead code: line 161 unconditionally
takes `sorted_epln[0][0]`, the overall minimum with earliest-insertion
tie-break.) -/
def firstMin : List (String × Int) → Option (String × Int)
  | [] => none
  | p :: rest =>
    match firstMin rest with
    | none => some p
    | some q => if q.2 < p.2 then some q else some p

/-- One node of `Unifier.decide_final_libs` (lines 151-162): a
library-owned node's library is rewritten to the first library attaining
the minimal egress count for its name; an empty egress dict would be a
Python `IndexError` on `sorted_epln[0]`. -/
def decideNode (eg : List (String × List (String × Int))) (p : Nat × UNode) :
    Except String (Nat × UNode) :=
  match p.2.library with
  | none => Except.ok p
  | some _ =>
    match firstMin ((getD eg p.2.name).getD []) with
    | some q => Except.ok (p.1, UNode.mk p.2.name p.2.package (some q.1))
    | none => Except.error "IndexError"

/-- All nodes of `Unifier.decide_final_libs`. -/
def decideNodes (eg : List (String × List (String × Int))) :
    List (Nat × UNode) → Except String (List (Nat × UNode))
  | [] => Except.ok []
  | p :: rest =>
    match decideNode eg p, decideNodes eg rest with
    | Except.ok p', Except.ok rest' => Except.ok (p' :: rest')
    | Except.error e, _ => Except.error e
    | _, Except.error e => Except.error e

/-- `Unifier.decide_final_libs`. -/
def decideFinalLibs (st : UnifierSt) : Except String UnifierSt :=
  match decideNodes st.egress st.finalNodes with
  | Except.ok ns => Except.ok (UnifierSt.mk st.nextIndex ns st.finalEdges
      st.n2idx st.idx2n st.egress)
  | Except.error e => Except.error e

/-- `Unifier.unify`: load shared-object graphs, graft the interpreted
graph with its bridges, then resolve library ownership. -/
def unify (pycg : PyCGDoc) (socgs : List SoCG) : Except String UniDoc :=
  match loadSocgs socgs initSt with
  | Except.error e => Except.error e
  | Except.ok st1 =>
    match processPycg pycg st1 with
    | Except.error e => Except.error e
    | Except.ok st2 =>
      match decideFinalLibs st2 with
      | Except.error e => Except.error e
      | Except.ok st3 => Except.ok (UniDoc.mk st3.finalNodes st3.finalEdges)

/-- Registration invariant of the merger: every final node's name is a key
of `n2idx`. -/
def RegInv (st : UnifierSt) : Prop :=
  ∀ q ∈ st.finalNodes, (getD st.n2idx q.2.name).isSome

/-- Library-node uniqueness invariant of the merger: two distinct ids that
both carry an `owningLibrary` never share a name. -/
def LibUniq (st : UnifierSt) : Prop :=
  ∀ q ∈ st.finalNodes, ∀ r ∈ st.finalNodes,
    q.1 ≠ r.1 → (q.2.library).isSome → (r.2.library).isSome → q.2.name ≠ r.2.name

/-! ## Multi-package stitcher (`scripts/stitch.py`). -/

/-- Internal namespace entry of an augmented partial-callgraph document:
namespace string plus optional bridge metadata. -/
structure NsEntry where
  ns : String
  bridges : Option (List Bridge)
deriving DecidableEq

/-- Augmented document as consumed by `MyStitcher` (product/version
identify the package; internal modules map source files to namespace
tables; external modules map files to namespace strings). -/
structure StitchCG where
  product : String
  version : String
  internalMods : List (String × List (Nat × NsEntry))
  externalMods : List (String × List (Nat × String))
  internalCalls : List (Nat × Nat)
  externalCalls : List (Nat × Nat)
deriving DecidableEq

/-- Node of the stitched graph: `URI`, `metadata.package`,
`metadata.bridges`. -/
structure SNode where
  uri : String
  package : String
  bridges : Option (List Bridge)
deriving DecidableEq

/-- Stitcher state (`MyStitcher.__init__`): counter, final node/edge
lists and the name/index maps. -/
structure StitchSt where
  nextIndex : Nat
  finalNodes : List (Nat × SNode)
  finalEdges : List (Nat × Nat)
  n2idx : List (String × Nat)
  idx2n : List (Nat × String)
deriving DecidableEq

/-- Fresh stitcher state. -/
def stitchInit : StitchSt := StitchSt.mk 0 [] [] [] []

/-- Name normalization of `MyStitcher.add_internal` (line 181):
`ns.replace('/', '.').lstrip('.').rstrip('.').removesuffix('()')`,
spelled out on the character list. -/
def normNs (ns : String) : String :=
  let a := ns.data.map (fun c => if c = '/' then '.' else c)
  let b := a.dropWhile (fun c => c = '.')
  let c := (b.reverse.dropWhile (fun c => c = '.')).reverse
  let d := if c.reverse.take 2 = [')', '('] then c.take (c.length - 2) else c
  String.mk d

/-- Namespace loop of `MyStitcher.add_internal` (lines 176-194): every
internal namespace of every module gets a fresh global id, the normalized
name, the package tag and the carried-over bridge metadata. -/
def addInternalNs (package : String) : List (Nat × NsEntry) → StitchSt → List (Nat × Nat) →
    StitchSt × List (Nat × Nat)
  | [], st, o2n => (st, o2n)
  | kv :: rest, st, o2n =>
    addInternalNs package rest
      (StitchSt.mk (st.nextIndex + 1)
        (st.finalNodes ++ [(st.nextIndex, SNode.mk (normNs kv.2.ns) package kv.2.bridges)])
        st.finalEdges
        (updD st.n2idx (normNs kv.2.ns) st.nextIndex)
        (updD st.idx2n st.nextIndex (normNs kv.2.ns)))
      (updD o2n kv.1 st.nextIndex)

/-- All internal modules of one document. -/
def addInternalMods (package : String) : List (String × List (Nat × NsEntry)) → StitchSt →
    List (Nat × Nat) → StitchSt × List (Nat × Nat)
  | [], st, o2n => (st, o2n)
  | m :: rest, st, o2n =>
    match addInternalNs package m.2 st o2n with
    | (st', o2n') => addInternalMods package rest st' o2n'

/-- Edge loop of `MyStitcher.add_internal` (lines 196-208): re-point each
internal call through the local→global map; additionally, when the
already-assigned name table holds a `<callee-name>.__init__` node, append
a second edge to that node. -/
def addInternalCalls (o2n : List (Nat × Nat)) :
    List (Nat × Nat) → StitchSt → Except String StitchSt
  | [], st => Except.ok st
  | call :: rest, st =>
    match getD o2n call.1, getD o2n call.2 with
    | some newsrc, some newdst =>
      match getD st.idx2n newdst with
      | some dstname =>
        addInternalCalls o2n rest
          (StitchSt.mk st.nextIndex st.finalNodes
            (match getD st.n2idx (dstname ++ ".__init__") with
             | some dstCtor => st.finalEdges ++ [(newsrc, newdst)] ++ [(newsrc, dstCtor)]
             | none => st.finalEdges ++ [(newsrc, newdst)])
            st.n2idx st.idx2n)
      | none => Except.error "KeyError idx2n"
    | _, _ => Except.error "KeyError oldidx2newidx"

/-- `MyStitcher.add_internal` body for a single document: namespaces
first, then internal calls; returns the updated state and the package's
old→new map. -/
def addInternalCG (st : StitchSt) (cg : StitchCG) :
    Except String (StitchSt × List (Nat × Nat)) :=
  match addInternalMods (cg.product ++ ":" ++ cg.version) cg.internalMods st [] with
  | (st1, o2n) =>
    match addInternalCalls o2n cg.internalCalls st1 with
    | Except.ok st2 => Except.ok (st2, o2n)
    | Except.error e => Except.error e

/-- `MyStitcher.add_internal` over all documents. -/
def addInternal : List StitchCG → StitchSt → Except String StitchSt
  | [], st => Except.ok st
  | cg :: rest, st =>
    match addInternalCG st cg with
    | Except.ok (st', _) => addInternal rest st'
    | Except.error e => Except.error e

/-! ## External-call resolution of the stitcher
(`MyStitcher.resolve_externals`, lines 272-365). -/

/-- Python `s.startswith(t)`. -/
def pyStarts (s t : String) : Bool := t.data.isPrefixOf s.data

/-- Python `s.split('//')` on character lists. -/
def splitSS : List Char → List (List Char)
  | [] => [[]]
  | '/' :: '/' :: rest => [] :: splitSS rest
  | c :: rest =>
    match splitSS rest with
    | [] => [[c]]
    | h :: t => (c :: h) :: t

/-- Python `s.removesuffix(suf)` on character lists. -/
def removeSuf (l suf : List Char) : List Char :=
  if suf.isSuffixOf l then l.take (l.length - suf.length) else l

/-- Denylist test of lines 287-289: the namespace is builtin, or its
squashed name starts with a standard-library module name followed by a
dot (`stdPres` holds those dotted module names, the runtime-derived
`STD_MODULE_PREFIXES`), or contains one of the known-buggy substrings
(`BUGGY_PREFIXES = ['numpy.distutils']`, tested with Python `in`). -/
def nsBlacklisted (stdPres bugPres : List String) (ns : String) : Bool :=
  pyStarts ns "//.builtin" ||
  (stdPres.any (fun m => pyStarts (String.mk ((splitSS ns.data).getLastD [])) m)) ||
  (bugPres.any (fun p => decide (p.data <:+: (splitSS ns.data).getLastD [])))

/-- Candidate names of lines 293-296: the squashed external name, plus
each string-method-suffix-stripped variant not equal to it. -/
def possibleNames (strSufs : List String) (extname : String) : List String :=
  [extname] ++ strSufs.filterMap (fun s =>
    let r := String.mk (removeSuf extname.data s.data)
    if r ∈ [extname] then none else some r)

/-- Blacklist and `oldidx2extname` construction (lines 282-296) over the
flattened external namespaces. -/
def buildExtMaps (stdPres bugPres strSufs : List String) :
    List (Nat × String) → Finset Nat → List (Nat × List String) →
    Finset Nat × List (Nat × List String)
  | [], bl, o2e => (bl, o2e)
  | kv :: rest, bl, o2e =>
    buildExtMaps stdPres bugPres strSufs rest
      (if nsBlacklisted stdPres bugPres kv.2 then insert kv.1 bl else bl)
      (updD o2e kv.1 (possibleNames strSufs (String.mk ((splitSS kv.2.data).getLastD []))))

/-- Per-package resolution state: final edge list, the process-wide
`n2fqn` memo (`'NONE'` marks a failed live lookup) and the
found/missed/ignored counters.  (The per-package statistics dictionary
records the same counters plus the unresolved names and is not modelled
separately.) -/
structure ResolveSt where
  finalEdges : List (Nat × Nat)
  n2fqn : List (String × String)
  foundExternals : Nat
  missedExternals : Nat
  ignoredExternals : Nat
deriving DecidableEq

/-- Option-list construction for one candidate name (lines 325-343):
`[dname, dname.__init__]`, then the memoized/live fully-qualified name
and its `.__init__` variant when resolution succeeds. The live
`pyname_to_fqn` lookup (an `importlib`/`inspect` query of the analyzed
runtime) is the injected oracle. -/
def buildOptions (memo : List (String × String)) (oracle : String → Option String)
    (dname : String) : List String × List (String × String) :=
  let base := [dname, dname ++ ".__init__"]
  let fqnPair : String × List (String × String) :=
    match getD memo dname with
    | some f => (f, memo)
    | none =>
      match oracle dname with
      | some f => (f, updD memo dname f)
      | none => ("NONE", updD memo dname "NONE")
  if fqnPair.1 ≠ "NONE" then
    (base ++ ([fqnPair.1, fqnPair.1 ++ ".__init__"].filter (fun f => f ∉ base)), fqnPair.2)
  else (base, fqnPair.2)

/-- Inner option loop (lines 345-353): append an edge for every option
present in the global name table; bump the found counters once per call. -/
def tryOptions (n2idx : List (String × Nat)) (newsrc : Nat) :
    List String → ResolveSt → Bool → ResolveSt × Bool
  | [], rst, found => (rst, found)
  | name :: rest, rst, found =>
    match getD n2idx name with
    | some newdst =>
      tryOptions n2idx newsrc rest
        (ResolveSt.mk (rst.finalEdges ++ [(newsrc, newdst)]) rst.n2fqn
          (if found then rst.foundExternals else rst.foundExternals + 1)
          rst.missedExternals rst.ignoredExternals)
        true
    | none => tryOptions n2idx newsrc rest rst found

/-- Candidate-name loop (lines 325-353). -/
def tryDnames (n2idx : List (String × Nat)) (oracle : String → Option String)
    (newsrc : Nat) : List String → ResolveSt → Bool → ResolveSt × Bool
  | [], rst, found => (rst, found)
  | dname :: rest, rst, found =>
    match buildOptions rst.n2fqn oracle dname with
    | (options, memo') =>
      match tryOptions n2idx newsrc options
          (ResolveSt.mk rst.finalEdges memo' rst.foundExternals rst.missedExternals
            rst.ignoredExternals) found with
      | (rst2, found') => tryDnames n2idx oracle newsrc rest rst2 found'

/-- One external call (lines 304-365): a blacklisted callee only bumps the
ignored counter; otherwise the source is re-pointed (a missing mapping is
a `KeyError`), an unknown callee index is skipped silently, and an
unresolved callee bumps the missed counter. -/
def processExternalCall (bl : Finset Nat) (o2e : List (Nat × List String))
    (old2new : List (Nat × Nat)) (n2idx : List (String × Nat))
    (oracle : String → Option String) (call : Nat × Nat) (rst : ResolveSt) :
    Except String ResolveSt :=
  if call.2 ∈ bl then
    Except.ok (ResolveSt.mk rst.finalEdges rst.n2fqn rst.foundExternals
      rst.missedExternals (rst.ignoredExternals + 1))
  else
    match getD old2new call.1 with
    | none => Except.error "KeyError old2new"
    | some newsrc =>
      match getD o2e call.2 with
      | none => Except.ok rst
      | some dstnames =>
        match tryDnames n2idx oracle newsrc dstnames rst false with
        | (rst1, true) => Except.ok rst1
        | (rst1, false) =>
          Except.ok (ResolveSt.mk rst1.finalEdges rst1.n2fqn rst1.foundExternals
            (rst1.missedExternals + 1) rst1.ignoredExternals)

/-- All external calls of one package. -/
def processExternalCalls (bl : Finset Nat) (o2e : List (Nat × List String))
    (old2new : List (Nat × Nat)) (n2idx : List (String × Nat))
    (oracle : String → Option String) :
    List (Nat × Nat) → ResolveSt → Except String ResolveSt
  | [], rst => Except.ok rst
  | c :: rest, rst =>
    match processExternalCall bl o2e old2new n2idx oracle c rst with
    | Except.ok rst' => processExternalCalls bl o2e old2new n2idx oracle rest rst'
    | Except.error e => Except.error e

/-! ## Bridge augmenter (`scripts/augment_partial_cg.py`). -/

/-- Raw bridge record from the introspector: `{pyname, cfunc, library}`. -/
structure RawBridge where
  pyname : String
  cfunc : String
  library : String
deriving DecidableEq

/-- Internal module entry of a partial-callgraph document. -/
structure ModEntry where
  sourceFile : String
  namespaces : List (Nat × NsEntry)
deriving DecidableEq

/-- The slice of a partial-callgraph document touched by the augmenter:
the node counter `cg['nodes']` and the internal module table. -/
structure PcgDoc where
  numNodes : Nat
  internal : List (String × ModEntry)
deriving DecidableEq

/-- Deduplicated bridge attachment shared by both augmentation paths
(lines 122-132 and 177-186): append the entry unless already present,
creating the list when the metadata had none. -/
def attachBridge (sb : Bridge) : Option (List Bridge) → Option (List Bridge)
  | some old => if sb ∈ old then some old else some (old ++ [sb])
  | none => some [sb]

/-- Bridge attachment of `process_internal_bridge` for one namespace
(lines 115-134): a namespace matching the caller name (exactly or with
the `()` call marker) gets the marker appended when missing and the
`{symbol, library}` entry attached, deduplicated.  `endswith('()')` is
spelled on the character list. -/
def augNsInternal (pyname : String) (sb : Bridge) (n : NsEntry) : NsEntry :=
  if n.ns = pyname ∨ n.ns = pyname ++ "()" then
    NsEntry.mk
      (if n.ns.data.reverse.take 2 = [')', '('] then n.ns else n.ns ++ "()")
      (attachBridge sb n.bridges)
  else n

/-- `Augmentor.process_internal_bridge` (lines 94-136) on an in-memory
document: every matching namespace of every internal module is updated
(the path cache, `found` flag and warning only affect logging and
write-back). -/
def processInternalBridge (b : RawBridge) (cg : PcgDoc) : PcgDoc :=
  PcgDoc.mk cg.numNodes
    (cg.internal.map (fun m =>
      (m.1, ModEntry.mk m.2.sourceFile
        (m.2.namespaces.map (fun p =>
          (p.1, augNsInternal b.pyname (Bridge.mk b.cfunc b.library) p.2))))))

/-- `pyname.split('//')[1]` (`pyname_to_tl_external`). -/
def pynameToTl (p : String) : String := String.mk ((splitSS p.data).getD 1 [])

/-- `pyname.split('//')[-1]` (`pyname_to_squash_external`). -/
def pynameToSquash (p : String) : String := String.mk ((splitSS p.data).getLastD [])

/-- Python `s.split('.')` on character lists. -/
def splitDot : List Char → List (List Char)
  | [] => [[]]
  | c :: rest =>
    if c = '.' then [] :: splitDot rest
    else match splitDot rest with
      | [] => [[c]]
      | h :: t => (c :: h) :: t

/-- Python `'.'.join(parts)` on character lists. -/
def joinDot : List (List Char) → List Char
  | [] => []
  | [x] => x
  | x :: rest => x ++ '.' :: joinDot rest

/-- Name cleaning in `process_external_bridge` (lines 171-175):
`ns.replace('/', '.').lstrip('.')`, then add the top-level name as a
dotted prefix unless the cleaned name already starts with one of the
package's top-level names followed by a dot. -/
def cleanNs (tls : List String) (tl : String) (ns : String) : String :=
  let c := String.mk
    ((ns.data.map (fun ch => if ch = '/' then '.' else ch)).dropWhile (fun ch => ch = '.'))
  if tls.any (fun t => pyStarts c (t ++ ".")) then c else tl ++ "." ++ c

/-- Match test of line 176 against the squashed caller name. -/
def extMatch (tls : List String) (tl squashed : String) (n : NsEntry) : Bool :=
  cleanNs tls tl n.ns = squashed || cleanNs tls tl n.ns = squashed ++ "()"

/-- Attach the bridge to a namespace, external variant — no rename
(lines 176-187). -/
def augNsExternal (sb : Bridge) (n : NsEntry) : NsEntry :=
  NsEntry.mk n.ns (attachBridge sb n.bridges)

/-- Update the first matching namespace of one module; the inner loop of
lines 170-189 breaks after a match. -/
def findUpdNs (isMatch : NsEntry → Bool) (upd : NsEntry → NsEntry) :
    List (Nat × NsEntry) → Option (List (Nat × NsEntry))
  | [] => none
  | p :: rest =>
    if isMatch p.2 then some ((p.1, upd p.2) :: rest)
    else (findUpdNs isMatch upd rest).map (fun r => p :: r)

/-- One module of the external search. -/
def updModExternal (isMatch : NsEntry → Bool) (sb : Bridge) (m : ModEntry) :
    Option ModEntry :=
  (findUpdNs isMatch (augNsExternal sb) m.namespaces).map
    (fun ns => ModEntry.mk m.sourceFile ns)

/-- The module loop of lines 169-189: the `break` only leaves the inner
loop, so every module's first matching namespace is augmented; the
returned flag is `found`. -/
def updModsExternal (isMatch : NsEntry → Bool) (sb : Bridge) :
    List (String × ModEntry) → List (String × ModEntry) × Bool
  | [] => ([], false)
  | m :: rest =>
    match updModsExternal isMatch sb rest with
    | (rest', f) =>
      match updModExternal isMatch sb m.2 with
      | some m' => ((m.1, m') :: rest', true)
      | none => (m :: rest', f)

/-- Node synthesis of lines 190-207: group the new `()`-marked namespace
under `/tl/`, bootstrapping that module (plus a bare module node) when it
is absent; indices come from the document's node counter, which advances
accordingly. -/
def synthExternal (tl squashed : String) (sb : Bridge) (cg : PcgDoc) : PcgDoc :=
  let modname := "/" ++ tl ++ "/"
  let newNs := modname ++ String.mk (joinDot ((splitDot squashed.data).drop 1)) ++ "()"
  let newInternal := NsEntry.mk newNs (some [sb])
  match getD cg.internal modname with
  | none =>
    PcgDoc.mk (cg.numNodes + 2)
      (updD cg.internal modname
        (ModEntry.mk "__init__.py"
          (updD (updD [] cg.numNodes (NsEntry.mk modname none))
            (cg.numNodes + 1) newInternal)))
  | some m =>
    PcgDoc.mk (cg.numNodes + 1)
      (updD cg.internal modname
        (ModEntry.mk m.sourceFile (updD m.namespaces cg.numNodes newInternal)))

/-- Search-then-synthesize body of `process_external_bridge`
(lines 160-207): augment the first matching namespace of every module;
when no module matches, synthesize a node. -/
def processExternalBridgeCore (tls : List String) (tl squashed : String) (sb : Bridge)
    (cg : PcgDoc) : PcgDoc :=
  match updModsExternal (extMatch tls tl squashed) sb cg.internal with
  | (internal', true) => PcgDoc.mk cg.numNodes internal'
  | (internal', false) => synthExternal tl squashed sb (PcgDoc.mk cg.numNodes internal')

/-- `Augmentor.process_external_bridge` (lines 138-207) on the in-memory
target document: resolve the caller's top-level import (an unknown
top-level drops the bridge, lines 143-147), collect the owning package's
top-level names, then search/synthesize. -/
def processExternalBridge (tl2pkg : List (String × String)) (b : RawBridge)
    (cg : PcgDoc) : PcgDoc :=
  match getD tl2pkg (pynameToTl b.pyname) with
  | none => cg
  | some pkg =>
    processExternalBridgeCore ((tl2pkg.filter (fun p => p.2 = pkg)).map (·.1))
      (pynameToTl b.pyname) (pynameToSquash b.pyname)
      (Bridge.mk b.cfunc b.library) cg

/-! # Theorems -/

/-! ## Dictionary lemmas -/

theorem getD_updD {α β : Type} [DecidableEq α] (d : List (α × β)) (k k' : α) (v : β) :
    getD (updD d k v) k' = if k' = k then some v else getD d k' := by
  induction d with
  | nil =>
    by_cases h : k' = k
    · simp [updD, getD, List.find?, h]
    · simp [updD, getD, List.find?, h, Ne.symm h]
  | cons p rest ih =>
    by_cases hp : p.1 = k
    · by_cases h : k' = k
      · simp [updD, getD, List.find?, hp, h]
      · simp only [updD, if_pos hp, if_neg h]
        unfold getD
        rw [List.find?_cons_of_neg _ (by simp [Ne.symm h]),
            List.find?_cons_of_neg _ (by simp [hp, Ne.symm h])]
    · by_cases h : k' = k
      · subst h
        simp only [updD, if_neg hp, if_pos rfl]
        unfold getD
        rw [List.find?_cons_of_neg _ (by simp [hp])]
        have := ih
        rw [if_pos rfl] at this
        exact this
      · simp only [updD, if_neg hp, if_neg h]
        by_cases hk' : p.1 = k'
        · unfold getD
          rw [List.find?_cons_of_pos _ (by simp [hk']), List.find?_cons_of_pos _ (by simp [hk'])]
        · unfold getD
          rw [List.find?_cons_of_neg _ (by simp [hk']), List.find?_cons_of_neg _ (by simp [hk'])]
          have := ih
          rw [if_neg h] at this
          exact this

theorem getD_updD_self {α β : Type} [DecidableEq α] (d : List (α × β)) (k : α) (v : β) :
    getD (updD d k v) k = some v := by
  rw [getD_updD, if_pos rfl]

theorem getD_updD_ne {α β : Type} [DecidableEq α] (d : List (α × β)) (k k' : α) (v : β)
    (hne : k' ≠ k) : getD (updD d k v) k' = getD d k' := by
  rw [getD_updD, if_neg hne]

theorem getD_updD_isSome {α β : Type} [DecidableEq α] (d : List (α × β)) (k k' : α) (v : β)
    (h : (getD d k').isSome) : (getD (updD d k v) k').isSome := by
  by_cases hk : k' = k
  · subst hk; rw [getD_updD_self]; rfl
  · rw [getD_updD_ne _ _ _ _ hk]; exact h

/-- Values appearing in `updD d k v` come from `d` or are `v`. -/
theorem mem_updD {α β : Type} [DecidableEq α] (d : List (α × β)) (k : α) (v : β)
    (q : α × β) (hq : q ∈ updD d k v) : q ∈ d ∨ q.2 = v := by
  induction d with
  | nil =>
    simp only [updD, List.mem_singleton] at hq
    right; rw [hq]
  | cons p rest ih =>
    by_cases hp : p.1 = k
    · simp only [updD, if_pos hp, List.mem_cons] at hq
      rcases hq with hq | hq
      · right; rw [hq]
      · left; exact List.mem_cons_of_mem _ hq
    · simp only [updD, if_neg hp, List.mem_cons] at hq
      rcases hq with hq | hq
      · left; rw [hq]; exact List.mem_cons_self _ _
      · rcases ih hq with h | h
        · left; exact List.mem_cons_of_mem _ h
        · right; exact h

theorem getD_mem {α β : Type} [DecidableEq α] (d : List (α × β)) (k : α) (v : β)
    (h : getD d k = some v) : (k, v) ∈ d := by
  unfold getD at h
  obtain ⟨p, hfind, hv⟩ : ∃ p, d.find? (fun p => p.1 = k) = some p ∧ p.2 = v := by
    cases hf : d.find? (fun p => p.1 = k) with
    | none => rw [hf] at h; simp at h
    | some p => rw [hf] at h; exact ⟨p, rfl, by simpa using h⟩
  have hk : p.1 = k := by simpa using List.find?_some hfind
  have hmem := List.mem_of_find?_eq_some hfind
  rw [← hk, ← hv]
  exact hmem

/-! ## Reachability lemmas -/

theorem subset_stepR (E : List (Nat × Nat)) (S : Finset Nat) : S ⊆ stepR E S :=
  Finset.subset_union_left

theorem mem_succsOf (E : List (Nat × Nat)) (S : Finset Nat) (n m : Nat)
    (hn : n ∈ S) (he : (n, m) ∈ E) : m ∈ succsOf E S := by
  unfold succsOf
  rw [List.mem_toFinset, List.mem_map]
  exact ⟨(n, m), List.mem_filter.mpr ⟨he, by simpa using hn⟩, rfl⟩

theorem succsOf_mono (E : List (Nat × Nat)) (S T : Finset Nat) (h : S ⊆ T) :
    succsOf E S ⊆ succsOf E T := by
  intro m hm
  unfold succsOf at hm ⊢
  rw [List.mem_toFinset, List.mem_map] at hm ⊢
  obtain ⟨e, he, hm⟩ := hm
  rw [List.mem_filter] at he
  exact ⟨e, List.mem_filter.mpr ⟨he.1, by simp only [decide_eq_true_eq] at he ⊢; exact h he.2⟩, hm⟩

theorem stepR_mono (E : List (Nat × Nat)) (S T : Finset Nat) (h : S ⊆ T) :
    stepR E S ⊆ stepR E T :=
  Finset.union_subset_union h (succsOf_mono E S T h)

theorem iterR_mono (E : List (Nat × Nat)) (k : Nat) (S T : Finset Nat) (h : S ⊆ T) :
    iterR E k S ⊆ iterR E k T := by
  induction k generalizing S T with
  | zero => exact h
  | succ k ih => exact ih _ _ (stepR_mono E S T h)

theorem iterR_succ_out (E : List (Nat × Nat)) (k : Nat) (S : Finset Nat) :
    iterR E (k + 1) S = stepR E (iterR E k S) := by
  induction k generalizing S with
  | zero => rfl
  | succ k ih =>
    show iterR E (k + 1) (stepR E S) = stepR E (iterR E (k + 1) S)
    rw [ih]
    rfl

theorem iterR_add (E : List (Nat × Nat)) (m n : Nat) (S : Finset Nat) :
    iterR E (m + n) S = iterR E m (iterR E n S) := by
  induction n generalizing S with
  | zero => rfl
  | succ n ih =>
    show iterR E (m + n + 1) S = iterR E m (iterR E n (stepR E S))
    rw [← ih]
    rfl

theorem subset_iterR (E : List (Nat × Nat)) (k : Nat) (S : Finset Nat) : S ⊆ iterR E k S := by
  induction k generalizing S with
  | zero => exact Finset.Subset.refl S
  | succ k ih => exact Finset.Subset.trans (subset_stepR E S) (ih (stepR E S))

theorem iterR_of_fixed (E : List (Nat × Nat)) (k : Nat) (S : Finset Nat)
    (h : stepR E S = S) : iterR E k S = S := by
  induction k with
  | zero => rfl
  | succ k ih => rw [iterR_succ_out, ih, h]

theorem iterR_subset_univ (E : List (Nat × Nat)) (k : Nat) (S : Finset Nat) :
    iterR E k S ⊆ S ∪ (E.map (·.2)).toFinset := by
  induction k with
  | zero => exact Finset.subset_union_left
  | succ k ih =>
    rw [iterR_succ_out]
    unfold stepR
    apply Finset.union_subset ih
    intro m hm
    unfold succsOf at hm
    rw [List.mem_toFinset, List.mem_map] at hm
    obtain ⟨e, he, hm⟩ := hm
    apply Finset.mem_union_right
    rw [List.mem_toFinset, List.mem_map]
    exact ⟨e, (List.mem_filter.mp he).1, hm⟩

theorem iterR_card_grow (E : List (Nat × Nat)) (k : Nat) (S : Finset Nat)
    (h : ∀ j < k, stepR E (iterR E j S) ≠ iterR E j S) :
    S.card + k ≤ (iterR E k S).card := by
  induction k with
  | zero => simp [iterR]
  | succ k ih =>
    have hk : stepR E (iterR E k S) ≠ iterR E k S := h k (Nat.lt_succ_self k)
    have hsub : iterR E k S ⊂ stepR E (iterR E k S) :=
      Finset.ssubset_iff_subset_ne.mpr ⟨subset_stepR E _, Ne.symm hk⟩
    have hcard := Finset.card_lt_card hsub
    have ihh := ih (fun j hj => h j (Nat.lt_succ_of_lt hj))
    rw [iterR_succ_out]
    omega

theorem reachableFrom_fixed (E : List (Nat × Nat)) (S : Finset Nat) :
    stepR E (reachableFrom E S) = reachableFrom E S := by
  by_cases hex : ∃ j < E.length + 1, stepR E (iterR E j S) = iterR E j S
  · obtain ⟨j, hj, hfix⟩ := hex
    unfold reachableFrom
    have hsplit : E.length + 1 = (E.length + 1 - j) + j := by omega
    rw [hsplit, iterR_add, iterR_of_fixed E _ _ hfix, hfix]
  · push_neg at hex
    exfalso
    have hgrow := iterR_card_grow E (E.length + 1) S (fun j hj => hex j hj)
    have hsub := iterR_subset_univ E (E.length + 1) S
    have hcard := Finset.card_le_card hsub
    have hu : (S ∪ (E.map (·.2)).toFinset).card ≤ S.card + E.length := by
      calc (S ∪ (E.map (·.2)).toFinset).card
          ≤ S.card + (E.map (·.2)).toFinset.card := Finset.card_union_le _ _
        _ ≤ S.card + (E.map (·.2)).length := by
            have := (E.map (·.2)).toFinset_card_le
            omega
        _ = S.card + E.length := by rw [List.length_map]
    omega

theorem subset_reachableFrom (E : List (Nat × Nat)) (S : Finset Nat) :
    S ⊆ reachableFrom E S :=
  subset_iterR E _ S

theorem reachableFrom_closed (E : List (Nat × Nat)) (S : Finset Nat) (n m : Nat)
    (hn : n ∈ reachableFrom E S) (he : (n, m) ∈ E) : m ∈ reachableFrom E S := by
  have hm : m ∈ stepR E (reachableFrom E S) :=
    Finset.mem_union_right _ (mem_succsOf E _ n m hn he)
  rwa [reachableFrom_fixed] at hm

/-- The set `reachableFrom` computes exactly reflexive-transitive
reachability from `S`. -/
theorem mem_reachableFrom_iff (E : List (Nat × Nat)) (S : Finset Nat) (n : Nat) :
    n ∈ reachableFrom E S ↔
      ∃ s ∈ S, Relation.ReflTransGen (fun a b => (a, b) ∈ E) s n := by
  constructor
  · suffices h : ∀ k T, (∀ t ∈ T, ∃ s ∈ S, Relation.ReflTransGen (fun a b => (a, b) ∈ E) s t) →
        ∀ m ∈ iterR E k T, ∃ s ∈ S, Relation.ReflTransGen (fun a b => (a, b) ∈ E) s m by
      intro hn
      exact h (E.length + 1) S (fun t ht => ⟨t, ht, Relation.ReflTransGen.refl⟩) n hn
    intro k
    induction k with
    | zero => intro T hT m hm; exact hT m hm
    | succ k ih =>
      intro T hT m hm
      apply ih (stepR E T) ?_ m hm
      intro t ht
      rcases Finset.mem_union.mp ht with ht | ht
      · exact hT t ht
      · unfold succsOf at ht
        rw [List.mem_toFinset, List.mem_map] at ht
        obtain ⟨e, he, hte⟩ := ht
        rw [List.mem_filter] at he
        obtain ⟨s, hs, hpath⟩ := hT e.1 (by simpa using he.2)
        refine ⟨s, hs, Relation.ReflTransGen.tail hpath ?_⟩
        rw [← hte, Prod.mk.eta]
        exact he.1
  · rintro ⟨s, hs, hpath⟩
    induction hpath with
    | refl => exact subset_reachableFrom E S hs
    | tail _ hstep ih => exact reachableFrom_closed E S _ _ ih hstep

/-! ## Walk and shortest-path lemmas -/

theorem mem_succsE (E : List (Nat × Nat)) (c v : Nat) :
    v ∈ succsE E c ↔ (c, v) ∈ E := by
  unfold succsE
  rw [List.mem_map]
  constructor
  · rintro ⟨e, he, hv⟩
    rw [List.mem_filter] at he
    have h1 : e.1 = c := by simpa using he.2
    rw [← h1, ← hv, Prod.mk.eta]
    exact he.1
  · intro h
    exact ⟨(c, v), List.mem_filter.mpr ⟨h, by simp⟩, rfl⟩

theorem walksRev_sound (E : List (Nat × Nat)) (src : Nat) (k : Nat) (w : List Nat)
    (hw : w ∈ walksRev E src k) : IsWalkRev E src w ∧ w.length = k + 1 := by
  induction k generalizing w with
  | zero =>
    simp only [walksRev, List.mem_singleton] at hw
    subst hw
    exact ⟨rfl, rfl⟩
  | succ k ih =>
    simp only [walksRev, List.mem_flatMap] at hw
    obtain ⟨w', hw', hmem⟩ := hw
    cases w' with
    | nil => simp at hmem
    | cons c rest =>
      simp only [List.mem_map] at hmem
      obtain ⟨v, hv, hw⟩ := hmem
      obtain ⟨hwalk, hlen⟩ := ih (c :: rest) hw'
      subst hw
      refine ⟨⟨(mem_succsE E c v).mp hv, hwalk⟩, ?_⟩
      simp only [List.length_cons] at hlen ⊢
      omega

theorem walksRev_complete (E : List (Nat × Nat)) (src : Nat) (k : Nat) (w : List Nat)
    (hwalk : IsWalkRev E src w) (hlen : w.length = k + 1) : w ∈ walksRev E src k := by
  induction k generalizing w with
  | zero =>
    cases w with
    | nil => simp at hlen
    | cons c rest =>
      cases rest with
      | nil =>
        have : c = src := hwalk
        subst this
        simp [walksRev]
      | cons d rest' => simp at hlen
  | succ k ih =>
    cases w with
    | nil => simp at hlen
    | cons v tail =>
      cases tail with
      | nil => simp at hlen
      | cons c rest =>
        obtain ⟨he, hwalk'⟩ := hwalk
        simp only [walksRev, List.mem_flatMap]
        refine ⟨c :: rest, ih (c :: rest) hwalk' (by simpa using hlen), ?_⟩
        simp only [List.mem_map]
        exact ⟨v, (mem_succsE E c v).mpr he, rfl⟩

theorem spSearch_found (E : List (Nat × Nat)) (src dst : Nat) (fuel k : Nat)
    (p : List Nat) (h : spSearch E src dst fuel k = some p) :
    ∃ j, k ≤ j ∧ p.reverse ∈ walksRev E src j ∧ p.reverse.head? = some dst ∧
      ∀ i, k ≤ i → i < j → ∀ w ∈ walksRev E src i, w.head? ≠ some dst := by
  induction fuel generalizing k with
  | zero => simp [spSearch] at h
  | succ fuel ih =>
    unfold spSearch at h
    cases hfind : (walksRev E src k).find? (fun w => w.head? == some dst) with
    | some w =>
      rw [hfind] at h
      simp only [Option.some.injEq] at h
      subst h
      have hprop : w.head? = some dst := by
        have := List.find?_some hfind
        simpa using this
      refine ⟨k, le_refl k, ?_, ?_, ?_⟩
      · rw [List.reverse_reverse]
        exact List.mem_of_find?_eq_some hfind
      · rw [List.reverse_reverse]
        exact hprop
      · intro i h1 h2
        omega
    | none =>
      rw [hfind] at h
      obtain ⟨j, hj, hmem, hhead, hmin⟩ := ih (k + 1) h
      refine ⟨j, by omega, hmem, hhead, ?_⟩
      intro i h1 h2 w hw
      by_cases hik : i = k
      · subst hik
        have := List.find?_eq_none.mp hfind w hw
        simpa using this
      · exact hmin i (by omega) h2 w hw

/-- Specification of `shortestPath`: any returned path is a walk from `src`
ending at `dst` (stored forward; its reverse is a reversed walk), and no
strictly shorter such walk exists. -/
theorem shortestPath_spec (E : List (Nat × Nat)) (src dst : Nat) (p : List Nat)
    (h : shortestPath E src dst = some p) :
    IsWalkRev E src p.reverse ∧ p.reverse.head? = some dst ∧
      ∀ w, IsWalkRev E src w → w.head? = some dst → p.length ≤ w.length := by
  obtain ⟨j, _, hmem, hhead, hmin⟩ := spSearch_found E src dst (E.length + 2) 0 p h
  obtain ⟨hwalk, hlen⟩ := walksRev_sound E src j p.reverse hmem
  refine ⟨hwalk, hhead, ?_⟩
  intro w hw hwdst
  have hne : w ≠ [] := by
    intro hnil
    rw [hnil] at hw
    exact hw
  have hwlen : w.length = (w.length - 1) + 1 := by
    cases w with
    | nil => exact absurd rfl hne
    | cons a l => simp
  by_cases hcmp : w.length - 1 < j
  · exfalso
    exact hmin (w.length - 1) (Nat.zero_le _) hcmp w
      (walksRev_complete E src (w.length - 1) w hw hwlen) hwdst
  · have hp : p.length = j + 1 := by
      rw [← List.length_reverse]
      exact hlen
    omega

theorem length_filterMap_isSome {α β : Type} (f : α → Option β) (l : List α) :
    (l.filterMap f).length = (l.filter (fun a => (f a).isSome)).length := by
  induction l with
  | nil => rfl
  | cons a l ih =>
    cases hfa : f a with
    | none => simp [List.filterMap_cons, List.filter_cons, hfa, ih]
    | some b => simp [List.filterMap_cons, List.filter_cons, hfa, ih]

/-! ## Claim C3: chain calculator structure -/

/-- C3: for every reachable-subgraph document containing a node named
equal to the target symbol (and whose root set, as forced by the
centrality quotient, is nonempty), the chain calculator takes as roots
exactly the graph nodes with zero in-degree in the original graph,
produces at most one chain per root — each chain being the reverse of a
shortest path in the reversed graph from the symbol to that root, in
calling order from the root down to the symbol — and returns centrality
equal to the number of roots for which a chain was found divided by the
total number of roots. -/
theorem C3_call_chains (doc : UniDoc) (sym : String) (si : Nat)
    (hsym : symbolIdx doc sym = some si) (hroots : rootsOf doc ≠ []) :
    ∃ chains c, processChains doc sym = Except.ok (chains, c) ∧
      (∀ r, r ∈ rootsOf doc ↔ r ∈ graphNodeList doc ∧ ∀ e ∈ doc.edges, e.2 ≠ r) ∧
      chains.length ≤ (rootsOf doc).length ∧
      chains.length = ((rootsOf doc).filter
        (fun r => (shortestPath (revEdges doc.edges) si r).isSome)).length ∧
      (∀ ch ∈ chains, ∃ r ∈ rootsOf doc,
        shortestPath (revEdges doc.edges) si r = some ch.reverse ∧
        IsWalkRev (revEdges doc.edges) si ch ∧ ch.head? = some r ∧
        ∀ w, IsWalkRev (revEdges doc.edges) si w → w.head? = some r →
          ch.length ≤ w.length) ∧
      c = (chains.length : ℚ) / ((rootsOf doc).length : ℚ) := by
  have hlen0 : ¬ (rootsOf doc).length = 0 := by
    intro h
    exact hroots (List.eq_nil_of_length_eq_zero h)
  refine ⟨((rootsOf doc).filterMap
      (fun r => shortestPath (revEdges doc.edges) si r)).map List.reverse, _,
    ?_, ?_, ?_, ?_, ?_, rfl⟩
  · unfold processChains
    rw [hsym]
    unfold findCallchains
    simp only [if_neg hlen0]
  · intro r
    unfold rootsOf
    rw [List.mem_filter]
    unfold isLeaf
    simp
  · rw [List.length_map]
    exact List.length_filterMap_le _ _
  · rw [List.length_map]
    exact length_filterMap_isSome _ _
  · intro ch hch
    rw [List.mem_map] at hch
    obtain ⟨p, hp, hchp⟩ := hch
    rw [List.mem_filterMap] at hp
    obtain ⟨r, hr, hsp⟩ := hp
    obtain ⟨hwalk, hhead, hmin⟩ := shortestPath_spec _ si r p hsp
    subst hchp
    refine ⟨r, hr, by rw [List.reverse_reverse]; exact hsp, hwalk, hhead, ?_⟩
    intro w hw hwr
    rw [List.length_reverse]
    exact hmin w hw hwr

/-- Witness for C3 at the graph `0 → 1` with symbol at node 1: the single
root is node 0. -/
theorem C3_call_chains_witness :
    symbolIdx (UniDoc.mk [(0, UNode.mk "a" (some "p:1") none),
        (1, UNode.mk "b" (some "p:1") none)] [(0, 1)]) "b" = some 1 ∧
    rootsOf (UniDoc.mk [(0, UNode.mk "a" (some "p:1") none),
        (1, UNode.mk "b" (some "p:1") none)] [(0, 1)]) = [0] ∧
    ∃ chains c, processChains (UniDoc.mk [(0, UNode.mk "a" (some "p:1") none),
        (1, UNode.mk "b" (some "p:1") none)] [(0, 1)]) "b" =
      Except.ok (chains, c) ∧
      c = (chains.length : ℚ) / ((rootsOf (UniDoc.mk [(0, UNode.mk "a" (some "p:1") none),
        (1, UNode.mk "b" (some "p:1") none)] [(0, 1)])).length : ℚ) := by
  refine ⟨by rfl, by rfl, ?_⟩
  obtain ⟨chains, c, hok, _, _, _, _, hc⟩ :=
    C3_call_chains (UniDoc.mk [(0, UNode.mk "a" (some "p:1") none),
      (1, UNode.mk "b" (some "p:1") none)] [(0, 1)]) "b" 1 (by rfl) (by decide)
  exact ⟨chains, c, hok, hc⟩

/-! ## Claim C4: centrality bounds and error behaviour (corrected) -/

/-- C4 counterexample: in the two-node cycle `0 ⇄ 1` every node has an
incoming edge, so the root set is empty; with the symbol present the
centrality division `len(chains) / num_leaves` raises `ZeroDivisionError`
instead of reporting 0/undefined. -/
theorem C4_empty_roots_counterexample :
    processChains (UniDoc.mk [(0, UNode.mk "a" (some "p:1") none),
      (1, UNode.mk "b" (some "p:1") none)] [(0, 1), (1, 0)]) "a" =
      Except.error "ZeroDivisionError" := by
  rfl

/-- C4 (amended): the computed centrality lies in `[0, 1]` and a missing
symbol yields "no chains, centrality 0" without an exception, but when the
symbol is present and the root set is empty the calculator raises a
`ZeroDivisionError` instead of reporting 0/undefined. -/
theorem C4_centrality_bounds (doc : UniDoc) (sym : String) :
    (symbolIdx doc sym = none → processChains doc sym = Except.ok ([], 0)) ∧
    (∀ i, symbolIdx doc sym = some i → rootsOf doc = [] →
      processChains doc sym = Except.error "ZeroDivisionError") ∧
    (∀ i, symbolIdx doc sym = some i → rootsOf doc ≠ [] →
      ∃ chains c, processChains doc sym = Except.ok (chains, c) ∧
        0 ≤ c ∧ c ≤ 1) := by
  refine ⟨?_, ?_, ?_⟩
  · intro h
    unfold processChains
    rw [h]
  · intro i hi hempty
    simp [processChains, hi, findCallchains, hempty]
  · intro i hi hne
    have hlen0 : ¬ (rootsOf doc).length = 0 := by
      intro h
      exact hne (List.eq_nil_of_length_eq_zero h)
    unfold processChains
    rw [hi]
    unfold findCallchains
    simp only [if_neg hlen0]
    refine ⟨_, _, rfl, ?_, ?_⟩
    · positivity
    · rw [div_le_one (by positivity)]
      have h1 : (((rootsOf doc).filterMap
          (fun r => shortestPath (revEdges doc.edges) i r)).map List.reverse).length
          ≤ (rootsOf doc).length := by
        rw [List.length_map]
        exact List.length_filterMap_le _ _
      exact_mod_cast h1

/-- Witness for C4 on a single isolated node carrying the symbol: the node
is its own root and the centrality is defined and lies in `[0, 1]`. -/
theorem C4_centrality_bounds_witness :
    symbolIdx (UniDoc.mk [(0, UNode.mk "s" (some "q:2") none)] []) "s" = some 0 ∧
    ∃ chains c, processChains (UniDoc.mk [(0, UNode.mk "s" (some "q:2") none)] []) "s" =
      Except.ok (chains, c) ∧ 0 ≤ c ∧ c ≤ 1 := by
  refine ⟨by rfl, ?_⟩
  exact (C4_centrality_bounds (UniDoc.mk [(0, UNode.mk "s" (some "q:2") none)] []) "s").2.2
    0 (by rfl) (by decide)

/-! ## Claim C1: reachability detector output -/

/-- C1: for every unified call graph and application identity, the
reachability detector's output satisfies: every entrypoint node is in the
reachable set; for every node `n` in the reachable set and every edge
`(n, m)` of the input graph, `m` is also in the reachable set; and the
output graph contains exactly the nodes of the reachable set and exactly
the input edges whose both endpoints are in the reachable set.  (The final
conjunct additionally identifies the reachable set with
reflexive-transitive reachability from the entrypoints.) -/
theorem C1_reachable_output (doc : UniDoc) (package pkg : String) (flag : Bool)
    (n2pkg : List (String × String)) (n2idx : List (String × Nat))
    (hcheck : checkPackage package = Except.ok (pkg, flag))
    (hmaps : buildMaps doc.nodes [] [] = Except.ok (n2pkg, n2idx)) :
    reachRun doc package =
      Except.ok (generateFinal doc
        (reachableFrom doc.edges (entrypoints n2pkg n2idx pkg))) ∧
    entrypoints n2pkg n2idx pkg ⊆ reachableFrom doc.edges (entrypoints n2pkg n2idx pkg) ∧
    (∀ n m, n ∈ reachableFrom doc.edges (entrypoints n2pkg n2idx pkg) →
      (n, m) ∈ doc.edges → m ∈ reachableFrom doc.edges (entrypoints n2pkg n2idx pkg)) ∧
    (∀ q, q ∈ (generateFinal doc
        (reachableFrom doc.edges (entrypoints n2pkg n2idx pkg))).nodes ↔
      q ∈ doc.nodes ∧ q.1 ∈ reachableFrom doc.edges (entrypoints n2pkg n2idx pkg)) ∧
    (∀ e, e ∈ (generateFinal doc
        (reachableFrom doc.edges (entrypoints n2pkg n2idx pkg))).edges ↔
      e ∈ doc.edges ∧ e.1 ∈ reachableFrom doc.edges (entrypoints n2pkg n2idx pkg) ∧
        e.2 ∈ reachableFrom doc.edges (entrypoints n2pkg n2idx pkg)) ∧
    (∀ n, n ∈ reachableFrom doc.edges (entrypoints n2pkg n2idx pkg) ↔
      ∃ s ∈ entrypoints n2pkg n2idx pkg,
        Relation.ReflTransGen (fun a b => (a, b) ∈ doc.edges) s n) := by
  refine ⟨?_, ?_, ?_, ?_, ?_, ?_⟩
  · unfold reachRun
    rw [hcheck, hmaps]
    rfl
  · exact subset_reachableFrom _ _
  · exact fun n m hn he => reachableFrom_closed _ _ n m hn he
  · intro q
    simp [generateFinal, List.mem_filter]
  · intro e
    simp [generateFinal, List.mem_filter, and_assoc]
  · exact fun n => mem_reachableFrom_iff _ _ n

/-- Witness for C1 at a concrete two-node graph (`a:1` owns node 0, which
calls the native node 1). -/
theorem C1_reachable_output_witness :
    checkPackage "a:1" = Except.ok ("a:1", true) ∧
    buildMaps (UniDoc.mk [(0, UNode.mk "f" (some "a:1") none),
        (1, UNode.mk "g" none (some "libz.so"))] [(0, 1)]).nodes [] [] =
      Except.ok ([("f", "a:1")], [("f", 0), ("g", 1)]) ∧
    (∀ n m, n ∈ reachableFrom [(0, 1)] (entrypoints [("f", "a:1")] [("f", 0), ("g", 1)] "a:1") →
      (n, m) ∈ [(0, 1)] →
      m ∈ reachableFrom [(0, 1)] (entrypoints [("f", "a:1")] [("f", 0), ("g", 1)] "a:1")) := by
  refine ⟨by rfl, by rfl, ?_⟩
  have h := C1_reachable_output
    (UniDoc.mk [(0, UNode.mk "f" (some "a:1") none), (1, UNode.mk "g" none (some "libz.so"))]
      [(0, 1)])
    "a:1" "a:1" true [("f", "a:1")] [("f", 0), ("g", 1)] (by rfl) (by rfl)
  exact h.2.2.1

/-! ## Claim C6: entrypoint computation (corrected) -/

theorem updD_append {α β : Type} [DecidableEq α] (d : List (α × β)) (k : α) (v : β)
    (h : ∀ q ∈ d, q.1 ≠ k) : updD d k v = d ++ [(k, v)] := by
  induction d with
  | nil => rfl
  | cons p rest ih =>
    have hp : ¬ p.1 = k := h p (List.mem_cons_self _ _)
    simp only [updD, if_neg hp, List.cons_append, List.cons.injEq, true_and]
    exact ih (fun q hq => h q (List.mem_cons_of_mem _ hq))

theorem getD_of_mem_nodupKeys {α β : Type} [DecidableEq α] (l : List (α × β)) (k : α) (v : β)
    (hnodup : (l.map (·.1)).Nodup) (hmem : (k, v) ∈ l) : getD l k = some v := by
  induction l with
  | nil => simp at hmem
  | cons p rest ih =>
    rcases List.mem_cons.mp hmem with hmem | hmem
    · unfold getD
      rw [List.find?_cons_of_pos _ (by simp [← hmem])]
      rw [← hmem]
      rfl
    · have hk : p.1 ≠ k := by
        intro hpk
        have : k ∈ rest.map (·.1) := List.mem_map.mpr ⟨(k, v), hmem, rfl⟩
        rw [List.map_cons, List.nodup_cons, hpk] at hnodup
        exact hnodup.1 this
      unfold getD
      rw [List.find?_cons_of_neg _ (by simp [hk])]
      exact ih (List.nodup_cons.mp (by simpa using hnodup)).2 hmem

/-- Under globally distinct node names, `buildMaps` never overwrites a
binding: it plainly appends one `n2idx` entry per node and one `n2pkg`
entry per package-owned node. -/
theorem buildMaps_clean (nodes : List (Nat × UNode))
    (n2pkg : List (String × String)) (n2idx : List (String × Nat))
    (hwf : ∀ p ∈ nodes, p.2.library = none → (p.2.package).isSome)
    (hd1 : ∀ q ∈ n2pkg, ∀ p ∈ nodes, q.1 ≠ p.2.name)
    (hd2 : ∀ q ∈ n2idx, ∀ p ∈ nodes, q.1 ≠ p.2.name)
    (hnodup : (nodes.map (fun p => p.2.name)).Nodup) :
    buildMaps nodes n2pkg n2idx = Except.ok
      (n2pkg ++ nodes.filterMap (fun p =>
          if p.2.library = none then (p.2.package).map (fun pk => (p.2.name, pk)) else none),
       n2idx ++ nodes.map (fun p => (p.2.name, p.1))) := by
  induction nodes generalizing n2pkg n2idx with
  | nil => simp [buildMaps]
  | cons p rest ih =>
    have hfresh : p.2.name ∉ rest.map (fun p => p.2.name) :=
      (List.nodup_cons.mp (by simpa using hnodup)).1
    have hnodup' : (rest.map (fun p => p.2.name)).Nodup :=
      (List.nodup_cons.mp (by simpa using hnodup)).2
    have hidx : updD n2idx p.2.name p.1 = n2idx ++ [(p.2.name, p.1)] :=
      updD_append _ _ _ (fun q hq => hd2 q hq p (List.mem_cons_self _ _))
    have hd2' : ∀ q ∈ n2idx ++ [(p.2.name, p.1)], ∀ p' ∈ rest, q.1 ≠ p'.2.name := by
      intro q hq p' hp'
      rcases List.mem_append.mp hq with hq | hq
      · exact hd2 q hq p' (List.mem_cons_of_mem _ hp')
      · rw [List.mem_singleton] at hq
        subst hq
        intro hcontra
        apply hfresh
        rw [show p.2.name = p'.2.name from hcontra]
        exact List.mem_map.mpr ⟨p', hp', rfl⟩
    cases hlib : p.2.library with
    | some lib =>
      have hstep : buildMaps (p :: rest) n2pkg n2idx =
          buildMaps rest n2pkg (updD n2idx p.2.name p.1) := by
        simp only [buildMaps, hlib]
      rw [hstep, hidx, ih n2pkg _
        (fun p' hp' => hwf p' (List.mem_cons_of_mem _ hp'))
        (fun q hq p' hp' => hd1 q hq p' (List.mem_cons_of_mem _ hp'))
        hd2' hnodup']
      simp [List.filterMap_cons, hlib, List.append_assoc]
    | none =>
      cases hpk : p.2.package with
      | none =>
        have := hwf p (List.mem_cons_self _ _) hlib
        rw [hpk] at this
        simp at this
      | some pk =>
        have hstep : buildMaps (p :: rest) n2pkg n2idx =
            buildMaps rest (updD n2pkg p.2.name pk) (updD n2idx p.2.name p.1) := by
          simp only [buildMaps, hlib, hpk]
        have hpkg : updD n2pkg p.2.name pk = n2pkg ++ [(p.2.name, pk)] :=
          updD_append _ _ _ (fun q hq => hd1 q hq p (List.mem_cons_self _ _))
        have hd1' : ∀ q ∈ n2pkg ++ [(p.2.name, pk)], ∀ p' ∈ rest, q.1 ≠ p'.2.name := by
          intro q hq p' hp'
          rcases List.mem_append.mp hq with hq | hq
          · exact hd1 q hq p' (List.mem_cons_of_mem _ hp')
          · rw [List.mem_singleton] at hq
            subst hq
            intro hcontra
            apply hfresh
            rw [show p.2.name = p'.2.name from hcontra]
            exact List.mem_map.mpr ⟨p', hp', rfl⟩
        rw [hstep, hpkg, hidx, ih _ _
          (fun p' hp' => hwf p' (List.mem_cons_of_mem _ hp'))
          hd1' hd2' hnodup']
        simp [List.filterMap_cons, hlib, hpk, List.append_assoc]

/-- Under globally distinct node names the computed entrypoint set is
exactly the set of indices of package-owned nodes with matching package. -/
theorem entrypoints_clean (nodes : List (Nat × UNode)) (pkg : String)
    (hnodup : (nodes.map (fun p => p.2.name)).Nodup) :
    entrypoints
      (nodes.filterMap (fun p =>
        if p.2.library = none then (p.2.package).map (fun pk => (p.2.name, pk)) else none))
      (nodes.map (fun p => (p.2.name, p.1))) pkg =
    ((nodes.filter (fun p => p.2.library = none ∧ p.2.package = some pkg)).map (·.1)).toFinset := by
  ext i
  unfold entrypoints
  rw [List.mem_toFinset, List.mem_toFinset, List.mem_filterMap, List.mem_map]
  constructor
  · rintro ⟨q, hq, hget⟩
    rw [List.mem_filter] at hq
    obtain ⟨hqmem, hqpkg⟩ := hq
    rw [List.mem_filterMap] at hqmem
    obtain ⟨p, hp, hfp⟩ := hqmem
    have hlib : p.2.library = none := by
      by_contra hlib
      rw [if_neg hlib] at hfp
      simp at hfp
    rw [if_pos hlib] at hfp
    obtain ⟨pk, hpk, hqeq⟩ := Option.map_eq_some'.mp hfp
    have hqname : q.1 = p.2.name := by rw [← hqeq]
    have hqval : q.2 = pk := by rw [← hqeq]
    have hmem : (p.2.name, i) ∈ nodes.map (fun p => (p.2.name, p.1)) := by
      rw [hqname] at hget
      exact getD_mem _ _ _ hget
    rw [List.mem_map] at hmem
    obtain ⟨p', hp', hfp'⟩ := hmem
    have hname : p'.2.name = p.2.name := congrArg Prod.fst hfp'
    have hieq : p'.1 = i := congrArg Prod.snd hfp'
    have hpp : p' = p := by
      apply List.inj_on_of_nodup_map hnodup hp' hp
      exact hname
    refine ⟨p, List.mem_filter.mpr ⟨hp, ?_⟩, by rw [← hpp, hieq]⟩
    have hpkval : p.2.package = some pk := hpk
    simp only [decide_eq_true_eq] at hqpkg ⊢
    refine ⟨by simp [hlib], ?_⟩
    simp only [hpkval, hqval ▸ hqpkg]
  · rintro ⟨p, hp, hpi⟩
    rw [List.mem_filter] at hp
    obtain ⟨hpmem, hpcond⟩ := hp
    simp only [Bool.and_eq_true, decide_eq_true_eq] at hpcond
    obtain ⟨hlib, hpkg⟩ := hpcond
    refine ⟨(p.2.name, pkg), ?_, ?_⟩
    · rw [List.mem_filter]
      constructor
      · rw [List.mem_filterMap]
        exact ⟨p, hpmem, by rw [if_pos (by simp [hlib]), hpkg]; rfl⟩
      · simp
    · have hkeys : ((nodes.map (fun p => (p.2.name, p.1))).map (·.1)).Nodup := by
        rw [List.map_map]
        exact hnodup
      have := getD_of_mem_nodupKeys (nodes.map (fun p => (p.2.name, p.1))) p.2.name p.1
        hkeys (List.mem_map.mpr ⟨p, hpmem, rfl⟩)
      rw [this, hpi]

theorem reachableFrom_empty (E : List (Nat × Nat)) :
    reachableFrom E (∅ : Finset Nat) = ∅ := by
  apply iterR_of_fixed
  unfold stepR succsOf
  have : E.filter (fun e => e.1 ∈ (∅ : Finset Nat)) = [] := by
    apply List.filter_eq_nil_iff.mpr
    intro e _
    simp
  rw [this]
  simp

/-- C6 counterexample: two nodes sharing the name `a` — node 0 owned by
package `P:1`, node 1 owned by library `L`.  The name-keyed lookup maps
are clobbered by the later node, so the computed entrypoint set is `{1}`
while the set of nodes whose `owningPackage` equals the identity is `{0}`. -/
theorem C6_duplicate_name_counterexample :
    buildMaps [(0, UNode.mk "a" (some "P:1") none), (1, UNode.mk "a" none (some "L"))] [] [] =
      Except.ok ([("a", "P:1")], [("a", 1)]) ∧
    entrypoints [("a", "P:1")] [("a", 1)] "P:1" ≠
      (([(0, UNode.mk "a" (some "P:1") none), (1, UNode.mk "a" none (some "L"))].filter
        (fun p => p.2.package = some "P:1")).map (·.1)).toFinset := by
  constructor
  · rfl
  · intro h
    have h1 : (1 : Nat) ∈ entrypoints [("a", "P:1")] [("a", 1)] "P:1" := by decide
    rw [h] at h1
    revert h1
    decide

/-- C6 (amended): when the unified graph's node names are pairwise
distinct (and every node carries exactly one of package/library), the
entrypoint set computed by the reachability detector is exactly the set
of nodes whose `owningPackage` equals the given identity (owner/repo
identities being normalized through `checkPackage` first); and when zero
nodes match, the output is an empty graph produced without raising.
Without the distinct-names hypothesis the counterexample applies. -/
theorem C6_entrypoints_match (doc : UniDoc) (package pkg : String) (flag : Bool)
    (hwf : ∀ p ∈ doc.nodes, (p.2.library = none → (p.2.package).isSome) ∧
      ((p.2.library).isSome → p.2.package = none))
    (hnodup : (doc.nodes.map (fun p => p.2.name)).Nodup)
    (hcheck : checkPackage package = Except.ok (pkg, flag)) :
    ∀ n2pkg n2idx, buildMaps doc.nodes [] [] = Except.ok (n2pkg, n2idx) →
      (entrypoints n2pkg n2idx pkg =
        ((doc.nodes.filter (fun p => p.2.package = some pkg)).map (·.1)).toFinset) ∧
      ((∀ p ∈ doc.nodes, p.2.package ≠ some pkg) →
        reachRun doc package = Except.ok (UniDoc.mk [] [])) := by
  intro n2pkg n2idx hmaps
  have hclean := buildMaps_clean doc.nodes [] []
    (fun p hp => (hwf p hp).1) (by simp) (by simp) hnodup
  rw [hmaps] at hclean
  have hpkg : n2pkg = doc.nodes.filterMap (fun p =>
      if p.2.library = none then (p.2.package).map (fun pk => (p.2.name, pk)) else none) := by
    have := congrArg (fun x => (Except.ok x : Except String _)) (rfl :
      (n2pkg, n2idx) = (n2pkg, n2idx))
    injection hclean with h
    rw [Prod.mk.injEq] at h
    simpa using h.1
  have hidx : n2idx = doc.nodes.map (fun p => (p.2.name, p.1)) := by
    injection hclean with h
    rw [Prod.mk.injEq] at h
    simpa using h.2
  have hfiltereq : doc.nodes.filter (fun p => p.2.library = none ∧ p.2.package = some pkg) =
      doc.nodes.filter (fun p => p.2.package = some pkg) := by
    apply List.filter_congr
    intro p hp
    rw [decide_eq_decide]
    constructor
    · rintro ⟨-, h2⟩
      simpa using h2
    · intro h2
      refine ⟨?_, h2⟩
      cases hlib : p.2.library with
      | none => simp
      | some lib =>
        have := (hwf p hp).2 (by simp [hlib])
        rw [this] at h2
        simp at h2
  have hep : entrypoints n2pkg n2idx pkg =
      ((doc.nodes.filter (fun p => p.2.package = some pkg)).map (·.1)).toFinset := by
    rw [hpkg, hidx, entrypoints_clean doc.nodes pkg hnodup, hfiltereq]
  refine ⟨hep, ?_⟩
  intro hnone
  have hempty : doc.nodes.filter (fun p => p.2.package = some pkg) = [] := by
    apply List.filter_eq_nil_iff.mpr
    intro p hp
    simpa using hnone p hp
  have hepz : entrypoints n2pkg n2idx pkg = ∅ := by
    rw [hep, hempty]
    rfl
  unfold reachRun
  rw [hcheck, hmaps]
  show Except.ok (generateFinal doc
    (reachableFrom doc.edges (entrypoints n2pkg n2idx pkg))) = _
  rw [hepz, reachableFrom_empty]
  unfold generateFinal
  congr 1
  simp only [UniDoc.mk.injEq]
  constructor
  · apply List.filter_eq_nil_iff.mpr
    intro p _
    simp
  · apply List.filter_eq_nil_iff.mpr
    intro e _
    simp

/-- Witness for C6 (amended) on a two-node graph with distinct names: the
entrypoints of `P:1` are exactly node 0, and querying the package `Q:9`,
which owns nothing, yields the empty graph. -/
theorem C6_entrypoints_match_witness :
    buildMaps [(0, UNode.mk "f" (some "P:1") none),
        (1, UNode.mk "g" none (some "L"))] [] [] =
      Except.ok ([("f", "P:1")], [("f", 0), ("g", 1)]) ∧
    entrypoints [("f", "P:1")] [("f", 0), ("g", 1)] "P:1" =
      (([(0, UNode.mk "f" (some "P:1") none), (1, UNode.mk "g" none (some "L"))].filter
        (fun p => p.2.package = some "P:1")).map (·.1)).toFinset ∧
    reachRun (UniDoc.mk [(0, UNode.mk "f" (some "P:1") none),
      (1, UNode.mk "g" none (some "L"))] []) "Q:9" = Except.ok (UniDoc.mk [] []) := by
  refine ⟨by rfl, ?_, ?_⟩
  · exact (C6_entrypoints_match
      (UniDoc.mk [(0, UNode.mk "f" (some "P:1") none), (1, UNode.mk "g" none (some "L"))] [])
      "P:1" "P:1" true (by decide) (by decide) (by rfl)
      [("f", "P:1")] [("f", 0), ("g", 1)] (by rfl)).1
  · exact (C6_entrypoints_match
      (UniDoc.mk [(0, UNode.mk "f" (some "P:1") none), (1, UNode.mk "g" none (some "L"))] [])
      "Q:9" "Q:9" true (by decide) (by decide) (by rfl)
      [("f", "P:1")] [("f", 0), ("g", 1)] (by rfl)).2 (by decide)

/-! ## Egress-table lemmas (native library merger) -/

theorem egGet_egSet (eg : List (String × List (String × Int))) (n l n' l' : String) (c : Int) :
    egGet (egSet eg n l c) n' l' =
      if n' = n ∧ l' = l then some c else egGet eg n' l' := by
  unfold egGet egSet
  by_cases hn : n' = n
  · subst hn
    rw [getD_updD_self]
    simp only [Option.getD_some]
    rw [getD_updD]
    by_cases hl : l' = l
    · simp [hl]
    · simp [hl]
  · rw [getD_updD_ne _ _ _ _ hn]
    simp [hn]

theorem egGet_mem (eg : List (String × List (String × Int))) (n l : String) (c : Int)
    (h : egGet eg n l = some c) : ∃ el, (n, el) ∈ eg ∧ (l, c) ∈ el := by
  unfold egGet at h
  cases hout : getD eg n with
  | none => rw [hout] at h; simp [getD, List.find?] at h
  | some el =>
    rw [hout] at h
    simp only [Option.getD_some] at h
    exact ⟨el, getD_mem _ _ _ hout, getD_mem _ _ _ h⟩

/-- Values written into the egress table come from the old table or are
the written constant. -/
theorem egSet_vals (P : Int → Prop) (eg : List (String × List (String × Int)))
    (n l : String) (c : Int)
    (hold : ∀ q ∈ eg, ∀ r ∈ q.2, P r.2) (hc : P c) :
    ∀ q ∈ egSet eg n l c, ∀ r ∈ q.2, P r.2 := by
  intro q hq r hr
  unfold egSet at hq
  rcases mem_updD _ _ _ q hq with hq | hq
  · exact hold q hq r hr
  · rw [hq] at hr
    rcases mem_updD _ _ _ r hr with hr | hr
    · cases hout : getD eg n with
      | none => rw [hout] at hr; simp at hr
      | some el =>
        rw [hout] at hr
        exact hold (n, el) (getD_mem _ _ _ hout) r hr
    · rw [hr]
      exact hc

theorem egBump_vals (eg : List (String × List (String × Int))) (n l : String)
    (hold : ∀ q ∈ eg, ∀ r ∈ q.2, 0 ≤ r.2) :
    ∀ q ∈ egBump eg n l, ∀ r ∈ q.2, 0 ≤ r.2 := by
  unfold egBump
  cases hget : egGet eg n l with
  | some c =>
    have hc : 0 ≤ c := by
      obtain ⟨el, hel, hmem⟩ := egGet_mem eg n l c hget
      exact hold (n, el) hel (l, c) hmem
    exact egSet_vals _ eg n l (c + 1) hold (by omega)
  | none => exact egSet_vals _ eg n l 1 hold (by omega)

/-! ## `firstMin` characterization -/

/-- The entry returned by `firstMin` (the head of Python's stable sort by
count) attains the minimum, and every entry strictly before it in the
table has a strictly larger count. -/
theorem firstMin_spec (l : List (String × Int)) (m : String × Int)
    (h : firstMin l = some m) :
    m ∈ l ∧ (∀ q ∈ l, m.2 ≤ q.2) ∧
      ∃ l1 l2, l = l1 ++ m :: l2 ∧ ∀ q ∈ l1, m.2 < q.2 := by
  induction l generalizing m with
  | nil => simp [firstMin] at h
  | cons p rest ih =>
    cases hrest : firstMin rest with
    | none =>
      have hm : m = p := by
        unfold firstMin at h
        rw [hrest] at h
        simpa using h.symm
      subst hm
      have hnil : rest = [] := by
        cases rest with
        | nil => rfl
        | cons a l' =>
          exfalso
          unfold firstMin at hrest
          cases h' : firstMin l' <;> rw [h'] at hrest <;> simp at hrest
          split at hrest <;> simp at hrest
      subst hnil
      exact ⟨List.mem_singleton.mpr rfl, by simp, [], [], rfl, by simp⟩
    | some q =>
      obtain ⟨hqmem, hqmin, l1, l2, hsplit, hstrict⟩ := ih q hrest
      unfold firstMin at h
      rw [hrest] at h
      have h' : (if q.2 < p.2 then some q else some p) = some m := h
      by_cases hlt : q.2 < p.2
      · rw [if_pos hlt] at h'
        have hm : m = q := by simpa using h'.symm
        subst hm
        refine ⟨List.mem_cons_of_mem _ hqmem, ?_, p :: l1, l2, by rw [hsplit]; rfl, ?_⟩
        · intro x hx
          rcases List.mem_cons.mp hx with hx | hx
          · rw [hx]; omega
          · exact hqmin x hx
        · intro x hx
          rcases List.mem_cons.mp hx with hx | hx
          · rw [hx]; omega
          · exact hstrict x hx
      · rw [if_neg hlt] at h'
        have hm : m = p := by simpa using h'.symm
        subst hm
        refine ⟨List.mem_cons_self _ _, ?_, [], rest, rfl, by simp⟩
        intro x hx
        rcases List.mem_cons.mp hx with hx | hx
        · rw [hx]
        · have := hqmin x hx
          omega

/-! ## `decide_final_libs` inversion -/

theorem decideNodes_mem (eg : List (String × List (String × Int)))
    (l l' : List (Nat × UNode)) (h : decideNodes eg l = Except.ok l') :
    ∀ y ∈ l', ∃ x ∈ l, decideNode eg x = Except.ok y := by
  induction l generalizing l' with
  | nil =>
    unfold decideNodes at h
    have : l' = [] := by simpa using h.symm
    subst this
    simp
  | cons p rest ih =>
    unfold decideNodes at h
    cases hp : decideNode eg p with
    | error e => rw [hp] at h; simp at h
    | ok p' =>
      cases hrest : decideNodes eg rest with
      | error e => rw [hp, hrest] at h; simp at h
      | ok rest' =>
        rw [hp, hrest] at h
        have hl' : l' = p' :: rest' := by simpa using h.symm
        subst hl'
        intro y hy
        rcases List.mem_cons.mp hy with hy | hy
        · exact ⟨p, List.mem_cons_self _ _, by rw [hp, hy]⟩
        · obtain ⟨x, hx, hxy⟩ := ih rest' hrest y hy
          exact ⟨x, List.mem_cons_of_mem _ hx, hxy⟩

/-! ## Merger phase invariants -/

theorem processBridges_n2idx (idx : Nat) (bs : List Bridge) (st : UnifierSt) :
    (processBridges idx bs st).n2idx = st.n2idx := by
  induction bs generalizing st with
  | nil => rfl
  | cons b rest ih =>
    unfold processBridges
    cases hb : getD st.n2idx b.symbol with
    | some hop => exact ih _
    | none => exact ih st

theorem processBridges_finalNodes (idx : Nat) (bs : List Bridge) (st : UnifierSt) :
    (processBridges idx bs st).finalNodes = st.finalNodes := by
  induction bs generalizing st with
  | nil => rfl
  | cons b rest ih =>
    unfold processBridges
    cases hb : getD st.n2idx b.symbol with
    | some hop => exact ih _
    | none => exact ih st

theorem processBridges_egress_pres (idx : Nat) (bs : List Bridge) (st : UnifierSt)
    (sym lib : String) (h : egGet st.egress sym lib = some (-1)) :
    egGet (processBridges idx bs st).egress sym lib = some (-1) := by
  induction bs generalizing st with
  | nil => exact h
  | cons b rest ih =>
    unfold processBridges
    cases hb : getD st.n2idx b.symbol with
    | some hop =>
      apply ih
      show egGet (egSet st.egress b.symbol b.library (-1)) sym lib = some (-1)
      rw [egGet_egSet]
      by_cases hc : sym = b.symbol ∧ lib = b.library
      · rw [if_pos hc]
      · rw [if_neg hc]; exact h
    | none => exact ih st h

theorem processBridges_sets (idx : Nat) (bs : List Bridge) (st : UnifierSt)
    (b : Bridge) (hmem : b ∈ bs) (hkey : (getD st.n2idx b.symbol).isSome) :
    egGet (processBridges idx bs st).egress b.symbol b.library = some (-1) := by
  induction bs generalizing st with
  | nil => simp at hmem
  | cons b0 rest ih =>
    rcases List.mem_cons.mp hmem with hb | hb
    · subst hb
      obtain ⟨hop, hhop⟩ := Option.isSome_iff_exists.mp hkey
      unfold processBridges
      rw [hhop]
      apply processBridges_egress_pres
      show egGet (egSet st.egress b.symbol b.library (-1)) b.symbol b.library = some (-1)
      rw [egGet_egSet, if_pos ⟨rfl, rfl⟩]
    · unfold processBridges
      cases hb0 : getD st.n2idx b0.symbol with
      | some hop => exact ih _ hb hkey
      | none => exact ih st hb hkey

theorem processBridges_vals (idx : Nat) (bs : List Bridge) (st : UnifierSt)
    (h : ∀ q ∈ st.egress, ∀ r ∈ q.2, r.2 = -1 ∨ 0 ≤ r.2) :
    ∀ q ∈ (processBridges idx bs st).egress, ∀ r ∈ q.2, r.2 = -1 ∨ 0 ≤ r.2 := by
  induction bs generalizing st with
  | nil => exact h
  | cons b rest ih =>
    unfold processBridges
    cases hb : getD st.n2idx b.symbol with
    | some hop =>
      apply ih
      exact egSet_vals (fun z => z = -1 ∨ 0 ≤ z) st.egress b.symbol b.library (-1) h
        (Or.inl rfl)
    | none => exact ih st h

theorem processPycgNodes_egress_pres (nodes : List (Nat × PyCGNode)) (st : UnifierSt)
    (o2n : List (Nat × Nat)) (sym lib : String)
    (h : egGet st.egress sym lib = some (-1)) :
    egGet (processPycgNodes nodes st o2n).1.egress sym lib = some (-1) := by
  induction nodes generalizing st o2n with
  | nil => exact h
  | cons kv rest ih =>
    unfold processPycgNodes
    cases hbr : kv.2.bridges with
    | some bs =>
      simp only [hbr]
      apply ih
      exact processBridges_egress_pres _ _ _ _ _ h
    | none =>
      simp only [hbr]
      exact ih _ _ h

theorem processPycgNodes_n2idx_mono (nodes : List (Nat × PyCGNode)) (st : UnifierSt)
    (o2n : List (Nat × Nat)) (s : String) (h : (getD st.n2idx s).isSome) :
    (getD (processPycgNodes nodes st o2n).1.n2idx s).isSome := by
  induction nodes generalizing st o2n with
  | nil => exact h
  | cons kv rest ih =>
    unfold processPycgNodes
    cases hbr : kv.2.bridges with
    | some bs =>
      simp only [hbr]
      apply ih
      rw [processBridges_n2idx]
      exact getD_updD_isSome _ _ _ _ h
    | none =>
      simp only [hbr]
      apply ih
      exact getD_updD_isSome _ _ _ _ h

theorem processPycgNodes_vals (nodes : List (Nat × PyCGNode)) (st : UnifierSt)
    (o2n : List (Nat × Nat))
    (h : ∀ q ∈ st.egress, ∀ r ∈ q.2, r.2 = -1 ∨ 0 ≤ r.2) :
    ∀ q ∈ (processPycgNodes nodes st o2n).1.egress, ∀ r ∈ q.2, r.2 = -1 ∨ 0 ≤ r.2 := by
  induction nodes generalizing st o2n with
  | nil => exact h
  | cons kv rest ih =>
    unfold processPycgNodes
    cases hbr : kv.2.bridges with
    | some bs =>
      simp only [hbr]
      apply ih
      exact processBridges_vals _ _ _ h
    | none =>
      simp only [hbr]
      exact ih _ _ h

theorem processPycgNodes_sets (nodes : List (Nat × PyCGNode)) (st : UnifierSt)
    (o2n : List (Nat × Nat)) (i : Nat) (nd : PyCGNode) (bs : List Bridge) (b : Bridge)
    (hmem : (i, nd) ∈ nodes) (hbs : nd.bridges = some bs) (hb : b ∈ bs)
    (hkey : (getD st.n2idx b.symbol).isSome) :
    egGet (processPycgNodes nodes st o2n).1.egress b.symbol b.library = some (-1) := by
  induction nodes generalizing st o2n with
  | nil => simp at hmem
  | cons kv rest ih =>
    rcases List.mem_cons.mp hmem with hkv | hkv
    · unfold processPycgNodes
      have hbr : kv.2.bridges = some bs := by rw [← hkv]; exact hbs
      simp only [hbr]
      apply processPycgNodes_egress_pres
      apply processBridges_sets _ _ _ _ hb
      show (getD (updD st.n2idx kv.2.uri st.nextIndex) b.symbol).isSome
      exact getD_updD_isSome _ _ _ _ hkey
    · unfold processPycgNodes
      cases hbr : kv.2.bridges with
      | some bs0 =>
        simp only [hbr]
        apply ih _ _ hkv
        rw [processBridges_n2idx]
        exact getD_updD_isSome _ _ _ _ hkey
      | none =>
        simp only [hbr]
        apply ih _ _ hkv
        exact getD_updD_isSome _ _ _ _ hkey

theorem processPycgEdges_fields (o2n : List (Nat × Nat)) (es : List (Nat × Nat))
    (st st' : UnifierSt) (h : processPycgEdges o2n es st = Except.ok st') :
    st'.egress = st.egress ∧ st'.n2idx = st.n2idx ∧ st'.finalNodes = st.finalNodes := by
  induction es generalizing st with
  | nil =>
    unfold processPycgEdges at h
    have : st' = st := by simpa using h.symm
    rw [this]
    exact ⟨rfl, rfl, rfl⟩
  | cons e rest ih =>
    unfold processPycgEdges at h
    split at h
    · obtain ⟨h1', h2', h3'⟩ := ih _ h
      exact ⟨h1', h2', h3'⟩
    · simp at h

/-! ## Socg-loading invariants -/

theorem loadSocgNodes_vals (lib : String) (nodes : List (Nat × String)) (st : UnifierSt)
    (o2n : List (Nat × Nat)) (h : ∀ q ∈ st.egress, ∀ r ∈ q.2, 0 ≤ r.2) :
    ∀ q ∈ (loadSocgNodes lib nodes st o2n).1.egress, ∀ r ∈ q.2, 0 ≤ r.2 := by
  induction nodes generalizing st o2n with
  | nil => exact h
  | cons kv rest ih =>
    unfold loadSocgNodes
    cases hkv : getD st.n2idx kv.2 with
    | none =>
      apply ih
      exact egSet_vals _ st.egress kv.2 lib 0 h (by omega)
    | some i =>
      apply ih
      exact egSet_vals _ st.egress kv.2 lib 0 h (by omega)

theorem loadSocgEdges_vals (lib : String) (o2n : List (Nat × Nat))
    (es : List (Nat × Nat)) (st st' : UnifierSt)
    (h : loadSocgEdges lib o2n es st = Except.ok st')
    (hvals : ∀ q ∈ st.egress, ∀ r ∈ q.2, 0 ≤ r.2) :
    ∀ q ∈ st'.egress, ∀ r ∈ q.2, 0 ≤ r.2 := by
  induction es generalizing st with
  | nil =>
    unfold loadSocgEdges at h
    have : st' = st := by simpa using h.symm
    rw [this]
    exact hvals
  | cons e rest ih =>
    unfold loadSocgEdges at h
    split at h
    · split at h
      · exact ih _ h (egBump_vals st.egress _ lib hvals)
      · simp at h
    · simp at h

theorem loadSocgs_vals (socgs : List SoCG) (st st' : UnifierSt)
    (h : loadSocgs socgs st = Except.ok st')
    (hvals : ∀ q ∈ st.egress, ∀ r ∈ q.2, 0 ≤ r.2) :
    ∀ q ∈ st'.egress, ∀ r ∈ q.2, 0 ≤ r.2 := by
  induction socgs generalizing st with
  | nil =>
    unfold loadSocgs at h
    have : st' = st := by simpa using h.symm
    rw [this]
    exact hvals
  | cons socg rest ih =>
    unfold loadSocgs at h
    cases h1 : loadSocg st socg with
    | error e => rw [h1] at h; simp at h
    | ok st1 =>
      rw [h1] at h
      apply ih _ h
      unfold loadSocg at h1
      exact loadSocgEdges_vals _ _ _ _ _ h1
        (loadSocgNodes_vals socg.library socg.nodes st [] hvals)

/-! ## Claim C2: library-ownership resolution in the merger -/

/-- C2: for every native symbol name introduced by a library, the node's
final `owningLibrary` is the library whose recorded egress count for that
name is smallest — any (symbol, library) pair targeted by a bridge from an
interpreted-side node carrying a known symbol name holds the sentinel `-1`,
strictly lower than any real count (all non-sentinel counts are `≥ 0`) —
and ties between equal counts go to the library appearing earliest in the
table (discovery order).  The choice is a function of the input documents,
hence deterministic for a fixed input order. -/
theorem C2_library_ownership (pycg : PyCGDoc) (socgs : List SoCG)
    (st1 st2 st3 : UnifierSt)
    (h1 : loadSocgs socgs initSt = Except.ok st1)
    (h2 : processPycg pycg st1 = Except.ok st2)
    (h3 : decideFinalLibs st2 = Except.ok st3) :
    (∀ i v, (i, v) ∈ st3.finalNodes → ∀ lb, v.library = some lb →
      ∃ v0 m, (i, v0) ∈ st2.finalNodes ∧ v0.name = v.name ∧ (v0.library).isSome ∧
        firstMin ((getD st2.egress v.name).getD []) = some m ∧ lb = m.1 ∧
        m ∈ (getD st2.egress v.name).getD [] ∧
        (∀ q ∈ (getD st2.egress v.name).getD [], m.2 ≤ q.2) ∧
        ∃ l1 l2, (getD st2.egress v.name).getD [] = l1 ++ m :: l2 ∧
          ∀ q ∈ l1, m.2 < q.2) ∧
    (∀ i nd bs b, (i, nd) ∈ pycg.nodes → nd.bridges = some bs → b ∈ bs →
      (getD st1.n2idx b.symbol).isSome →
      egGet st2.egress b.symbol b.library = some (-1)) ∧
    (∀ name el q, getD st2.egress name = some el → q ∈ el →
      q.2 = -1 ∨ 0 ≤ q.2) := by
  have hnodes : ∃ ns, decideNodes st2.egress st2.finalNodes = Except.ok ns ∧
      st3.finalNodes = ns := by
    unfold decideFinalLibs at h3
    split at h3
    · refine ⟨_, by assumption, ?_⟩
      have := h3
      simp only [Except.ok.injEq] at this
      rw [← this]
    · simp at h3
  obtain ⟨ns, hdec, hns⟩ := hnodes
  refine ⟨?_, ?_, ?_⟩
  · intro i v hv lb hlb
    rw [hns] at hv
    obtain ⟨x, hx, hnode⟩ := decideNodes_mem _ _ _ hdec (i, v) hv
    unfold decideNode at hnode
    cases hxlib : x.2.library with
    | none =>
      rw [hxlib] at hnode
      have hxv : x = (i, v) := by simpa using hnode
      rw [hxv] at hxlib
      rw [hxlib] at hlb
      simp at hlb
    | some l0 =>
      rw [hxlib] at hnode
      cases hfm : firstMin ((getD st2.egress x.2.name).getD []) with
      | none => rw [hfm] at hnode; simp at hnode
      | some m =>
        rw [hfm] at hnode
        simp only [Except.ok.injEq] at hnode
        have hi : x.1 = i := congrArg Prod.fst hnode
        have hv2 : UNode.mk x.2.name x.2.package (some m.1) = v := congrArg Prod.snd hnode
        have hvname : v.name = x.2.name := by rw [← hv2]
        have hvlib : v.library = some m.1 := by rw [← hv2]
        have hlbm : lb = m.1 := by rw [hvlib] at hlb; simpa using hlb.symm
        obtain ⟨hmmem, hmmin, l1, l2, hsp, hstrict⟩ := firstMin_spec _ m hfm
        refine ⟨x.2, m, ?_, hvname.symm, by rw [hxlib]; rfl, ?_, hlbm, ?_, ?_, l1, l2, ?_, hstrict⟩
        · rw [← hi]
          simpa using hx
        · rw [hvname]; exact hfm
        · rw [hvname]; exact hmmem
        · rw [hvname]; exact hmmin
        · rw [hvname]; exact hsp
  · intro i nd bs b hmem hbs hb hkey
    unfold processPycg at h2
    split at h2
    next stA o2n heq =>
      have hfields := processPycgEdges_fields _ _ _ _ h2
      rw [hfields.1]
      have := processPycgNodes_sets pycg.nodes st1 [] i nd bs b hmem hbs hb hkey
      rw [heq] at this
      exact this
  · intro name el q hgot hq
    unfold processPycg at h2
    split at h2
    next stA o2n heq =>
      have hfields := processPycgEdges_fields _ _ _ _ h2
      rw [hfields.1] at hgot
      have hst1 : ∀ x ∈ st1.egress, ∀ r ∈ x.2, r.2 = -1 ∨ 0 ≤ r.2 := by
        intro x hx r hr
        right
        exact loadSocgs_vals socgs initSt st1 h1 (by intro x hx; simp [initSt] at hx) x hx r hr
      have hval := processPycgNodes_vals pycg.nodes st1 [] hst1
      rw [heq] at hval
      exact hval (name, el) (getD_mem _ _ _ hgot) q hq

/-- Witness for C2 on the spec's first example scenario: libraries `A` and
`B` both define `foo`; `A` records 1 outgoing edge for it, `B` records 0;
no bridge targets `foo`; ownership goes to `B`. -/
theorem C2_library_ownership_witness :
    loadSocgs [SoCG.mk "A" [(0, "foo")] [(0, 0)], SoCG.mk "B" [(0, "foo")] []] initSt =
      Except.ok (UnifierSt.mk 1 [(0, UNode.mk "foo" none (some "A"))] [(0, 0)]
        [("foo", 0)] [(0, "foo")] [("foo", [("A", 1), ("B", 0)])]) ∧
    ∃ v0 m, (0, v0) ∈ (UnifierSt.mk 1 [(0, UNode.mk "foo" none (some "A"))] [(0, 0)]
        [("foo", 0)] [(0, "foo")] [("foo", [("A", 1), ("B", 0)])]).finalNodes ∧
      v0.name = "foo" ∧ (v0.library).isSome ∧
      firstMin ((getD (UnifierSt.mk 1 [(0, UNode.mk "foo" none (some "A"))] [(0, 0)]
        [("foo", 0)] [(0, "foo")] [("foo", [("A", 1), ("B", 0)])]).egress "foo").getD []) =
        some m ∧
      "B" = m.1 := by
  refine ⟨by rfl, ?_⟩
  have h := C2_library_ownership (PyCGDoc.mk [] [])
    [SoCG.mk "A" [(0, "foo")] [(0, 0)], SoCG.mk "B" [(0, "foo")] []]
    (UnifierSt.mk 1 [(0, UNode.mk "foo" none (some "A"))] [(0, 0)]
      [("foo", 0)] [(0, "foo")] [("foo", [("A", 1), ("B", 0)])])
    (UnifierSt.mk 1 [(0, UNode.mk "foo" none (some "A"))] [(0, 0)]
      [("foo", 0)] [(0, "foo")] [("foo", [("A", 1), ("B", 0)])])
    (UnifierSt.mk 1 [(0, UNode.mk "foo" none (some "B"))] [(0, 0)]
      [("foo", 0)] [(0, "foo")] [("foo", [("A", 1), ("B", 0)])])
    (by rfl) (by rfl) (by rfl)
  obtain ⟨v0, m, hmem, hname, hlib, hfm, hlbm, -⟩ :=
    h.1 0 (UNode.mk "foo" none (some "B")) (by simp) "B" rfl
  exact ⟨v0, m, hmem, hname, hlib, hfm, hlbm⟩

/-! ## Claim C7: node uniqueness (corrected) -/

theorem loadSocgNodes_inv (lib : String) (nodes : List (Nat × String)) (st : UnifierSt)
    (o2n : List (Nat × Nat)) (hreg : RegInv st) (huniq : LibUniq st) :
    RegInv (loadSocgNodes lib nodes st o2n).1 ∧ LibUniq (loadSocgNodes lib nodes st o2n).1 := by
  induction nodes generalizing st o2n with
  | nil => exact ⟨hreg, huniq⟩
  | cons kv rest ih =>
    unfold loadSocgNodes
    cases hkv : getD st.n2idx kv.2 with
    | some i => exact ih _ _ hreg huniq
    | none =>
      apply ih
      · intro q hq
        rcases List.mem_append.mp hq with hq | hq
        · exact getD_updD_isSome _ _ _ _ (hreg q hq)
        · rw [List.mem_singleton] at hq
          rw [hq]
          rw [getD_updD_self]
          rfl
      · intro q hq r hr hne hql hrl
        rcases List.mem_append.mp hq with hq | hq <;>
          rcases List.mem_append.mp hr with hr | hr
        · exact huniq q hq r hr hne hql hrl
        · rw [List.mem_singleton] at hr
          rw [hr]
          intro hcontra
          have := hreg q hq
          rw [hcontra] at this
          show False
          rw [show (st.nextIndex, UNode.mk kv.2 none (some lib)).2.name = kv.2 from rfl] at this
          rw [hkv] at this
          simp at this
        · rw [List.mem_singleton] at hq
          rw [hq]
          intro hcontra
          have := hreg r hr
          rw [← hcontra] at this
          rw [show (st.nextIndex, UNode.mk kv.2 none (some lib)).2.name = kv.2 from rfl] at this
          rw [hkv] at this
          simp at this
        · rw [List.mem_singleton] at hq
          rw [List.mem_singleton] at hr
          exfalso
          apply hne
          rw [hq, hr]

theorem loadSocgEdges_nodes (lib : String) (o2n : List (Nat × Nat)) (es : List (Nat × Nat))
    (st st' : UnifierSt) (h : loadSocgEdges lib o2n es st = Except.ok st') :
    st'.finalNodes = st.finalNodes ∧ st'.n2idx = st.n2idx := by
  induction es generalizing st with
  | nil =>
    unfold loadSocgEdges at h
    have : st' = st := by simpa using h.symm
    rw [this]
    exact ⟨rfl, rfl⟩
  | cons e rest ih =>
    unfold loadSocgEdges at h
    split at h
    · split at h
      · obtain ⟨h1', h2'⟩ := ih _ h
        exact ⟨h1', h2'⟩
      · simp at h
    · simp at h

theorem loadSocgs_inv (socgs : List SoCG) (st st' : UnifierSt)
    (h : loadSocgs socgs st = Except.ok st') (hreg : RegInv st) (huniq : LibUniq st) :
    RegInv st' ∧ LibUniq st' := by
  induction socgs generalizing st with
  | nil =>
    unfold loadSocgs at h
    have : st' = st := by simpa using h.symm
    rw [this]
    exact ⟨hreg, huniq⟩
  | cons socg rest ih =>
    unfold loadSocgs at h
    cases h1 : loadSocg st socg with
    | error e => rw [h1] at h; simp at h
    | ok st1 =>
      rw [h1] at h
      unfold loadSocg at h1
      obtain ⟨hregA, huniqA⟩ := loadSocgNodes_inv socg.library socg.nodes st [] hreg huniq
      have hAB := loadSocgEdges_nodes socg.library _ socg.edges _ st1 h1
      apply ih _ h
      · intro q hq
        rw [hAB.1] at hq
        rw [hAB.2]
        exact hregA q hq
      · intro q hq r hr
        rw [hAB.1] at hq hr
        exact huniqA q hq r hr

theorem processPycgNodes_inv (nodes : List (Nat × PyCGNode)) (st : UnifierSt)
    (o2n : List (Nat × Nat)) (hreg : RegInv st) (huniq : LibUniq st) :
    RegInv (processPycgNodes nodes st o2n).1 ∧ LibUniq (processPycgNodes nodes st o2n).1 := by
  induction nodes generalizing st o2n with
  | nil => exact ⟨hreg, huniq⟩
  | cons kv rest ih =>
    unfold processPycgNodes
    have hreg1 : RegInv (UnifierSt.mk (st.nextIndex + 1)
        (st.finalNodes ++ [(st.nextIndex, UNode.mk kv.2.uri (some kv.2.package) none)])
        st.finalEdges (updD st.n2idx kv.2.uri st.nextIndex)
        (updD st.idx2n st.nextIndex kv.2.uri) st.egress) := by
      intro q hq
      rcases List.mem_append.mp hq with hq | hq
      · exact getD_updD_isSome _ _ _ _ (hreg q hq)
      · rw [List.mem_singleton] at hq
        rw [hq]
        rw [getD_updD_self]
        rfl
    have huniq1 : LibUniq (UnifierSt.mk (st.nextIndex + 1)
        (st.finalNodes ++ [(st.nextIndex, UNode.mk kv.2.uri (some kv.2.package) none)])
        st.finalEdges (updD st.n2idx kv.2.uri st.nextIndex)
        (updD st.idx2n st.nextIndex kv.2.uri) st.egress) := by
      intro q hq r hr hne hql hrl
      rcases List.mem_append.mp hq with hq | hq <;>
        rcases List.mem_append.mp hr with hr | hr
      · exact huniq q hq r hr hne hql hrl
      · rw [List.mem_singleton] at hr
        rw [hr] at hrl
        simp at hrl
      · rw [List.mem_singleton] at hq
        rw [hq] at hql
        simp at hql
      · rw [List.mem_singleton] at hq
        rw [hq] at hql
        simp at hql
    cases hbr : kv.2.bridges with
    | some bs =>
      simp only [hbr]
      apply ih
      · intro q hq
        rw [processBridges_finalNodes] at hq
        rw [processBridges_n2idx]
        exact hreg1 q hq
      · intro q hq r hr
        rw [processBridges_finalNodes] at hq hr
        exact huniq1 q hq r hr
    | none =>
      simp only [hbr]
      exact ih _ _ hreg1 huniq1

theorem decideNode_shape (eg : List (String × List (String × Int))) (x y : Nat × UNode)
    (h : decideNode eg x = Except.ok y) :
    y.1 = x.1 ∧ y.2.name = x.2.name ∧ ((y.2.library).isSome → (x.2.library).isSome) := by
  unfold decideNode at h
  cases hlib : x.2.library with
  | none =>
    rw [hlib] at h
    have hxy : x = y := by simpa using h
    subst hxy
    exact ⟨rfl, rfl, fun h' => by rw [hlib] at h'; exact h'⟩
  | some l0 =>
    rw [hlib] at h
    cases hfm : firstMin ((getD eg x.2.name).getD []) with
    | none => rw [hfm] at h; simp at h
    | some m =>
      rw [hfm] at h
      have hy : (x.1, UNode.mk x.2.name x.2.package (some m.1)) = y := by simpa using h
      subst hy
      refine ⟨rfl, rfl, fun _ => ?_⟩
      simp [hlib]

/-- C7 counterexample: the stitcher assigns fresh global ids
unconditionally, so the two namespaces `/a/b` and `a.b` — both normalizing
to the name `a.b` under the same package — yield two distinct ids carrying
an identical `(name, owningPackage)` pair. -/
theorem C7_duplicate_pair_counterexample :
    addInternalCG stitchInit (StitchCG.mk "p" "1"
      [("mod", [(0, NsEntry.mk "/a/b" none), (1, NsEntry.mk "a.b" none)])] [] [] []) =
    Except.ok (StitchSt.mk 2
      [(0, SNode.mk "a.b" "p:1" none), (1, SNode.mk "a.b" "p:1" none)] []
      [("a.b", 1)] [(0, "a.b"), (1, "a.b")], [(0, 0), (1, 1)]) ∧
    ¬ (∀ i v j w,
        (i, v) ∈ [(0, SNode.mk "a.b" "p:1" none), (1, SNode.mk "a.b" "p:1" none)] →
        (j, w) ∈ [(0, SNode.mk "a.b" "p:1" none), (1, SNode.mk "a.b" "p:1" none)] →
        i ≠ j → (v.uri, v.package) ≠ (w.uri, w.package)) := by
  constructor
  · rfl
  · intro h
    exact h 0 (SNode.mk "a.b" "p:1" none) 1 (SNode.mk "a.b" "p:1" none)
      (by simp) (by simp) (by decide) rfl

/-- C7 (amended): in every unified graph produced by the native-library
merger, no two distinct global ids that both carry an `owningLibrary`
share a name — hence no identical `(name, owningLibrary)` pair.  The
corresponding `(name, owningPackage)` guarantee does not hold for the
stitcher, which assigns fresh ids unconditionally (see the
counterexample); the merger inherits any such duplicates among
interpreted-side nodes. -/
theorem C7_library_pair_uniqueness (pycg : PyCGDoc) (socgs : List SoCG) (doc : UniDoc)
    (h : unify pycg socgs = Except.ok doc) :
    ∀ q ∈ doc.nodes, ∀ r ∈ doc.nodes, q.1 ≠ r.1 →
      (q.2.library).isSome → (r.2.library).isSome →
      q.2.name ≠ r.2.name ∧ (q.2.name, q.2.library) ≠ (r.2.name, r.2.library) := by
  unfold unify at h
  split at h
  · simp at h
  next st1 heq1 =>
    split at h
    · simp at h
    next st2 heq2 =>
      split at h
      · simp at h
      next st3 heq3 =>
        have hdoc : doc = UniDoc.mk st3.finalNodes st3.finalEdges := by simpa using h.symm
        have hinv1 := loadSocgs_inv socgs initSt st1 heq1
          (by intro q hq; simp [initSt] at hq)
          (by intro q hq; simp [initSt] at hq)
        have hinv2 : LibUniq st2 := by
          unfold processPycg at heq2
          split at heq2
          next stA o2nA heqA =>
            have hfields := processPycgEdges_fields _ _ _ _ heq2
            have hinvA := processPycgNodes_inv pycg.nodes st1 [] hinv1.1 hinv1.2
            rw [heqA] at hinvA
            intro q hq r hr
            rw [hfields.2.2] at hq hr
            exact hinvA.2 q hq r hr
        have hnodes : ∃ ns, decideNodes st2.egress st2.finalNodes = Except.ok ns ∧
            st3.finalNodes = ns := by
          unfold decideFinalLibs at heq3
          split at heq3
          · refine ⟨_, by assumption, ?_⟩
            have := heq3
            simp only [Except.ok.injEq] at this
            rw [← this]
          · simp at heq3
        obtain ⟨ns, hdec, hns⟩ := hnodes
        intro q hq r hr hne hql hrl
        rw [hdoc] at hq hr
        show q.2.name ≠ r.2.name ∧ _
        have hq2 : q ∈ ns := by rw [← hns]; exact hq
        have hr2 : r ∈ ns := by rw [← hns]; exact hr
        obtain ⟨x, hx, hxq⟩ := decideNodes_mem _ _ _ hdec q hq2
        obtain ⟨y, hy, hyr⟩ := decideNodes_mem _ _ _ hdec r hr2
        obtain ⟨hxi, hxn, hxl⟩ := decideNode_shape _ _ _ hxq
        obtain ⟨hyi, hyn, hyl⟩ := decideNode_shape _ _ _ hyr
        have hname : q.2.name ≠ r.2.name := by
          rw [hxn, hyn]
          exact hinv2 x hx y hy (by rw [← hxi, ← hyi]; exact hne) (hxl hql) (hyl hrl)
        refine ⟨hname, ?_⟩
        intro hcontra
        exact hname (congrArg Prod.fst hcontra)

/-- Witness for C7 (amended): libraries `A` and `B` introduce the distinct
symbols `foo` and `bar`; the merged graph's two library nodes have
distinct names and distinct `(name, owningLibrary)` pairs. -/
theorem C7_library_pair_uniqueness_witness :
    unify (PyCGDoc.mk [] []) [SoCG.mk "A" [(0, "foo")] [], SoCG.mk "B" [(0, "bar")] []] =
      Except.ok (UniDoc.mk [(0, UNode.mk "foo" none (some "A")),
        (1, UNode.mk "bar" none (some "B"))] []) ∧
    ((UNode.mk "foo" none (some "A")).name ≠ (UNode.mk "bar" none (some "B")).name ∧
      ((UNode.mk "foo" none (some "A")).name, (UNode.mk "foo" none (some "A")).library) ≠
      ((UNode.mk "bar" none (some "B")).name, (UNode.mk "bar" none (some "B")).library)) := by
  refine ⟨by rfl, ?_⟩
  exact C7_library_pair_uniqueness (PyCGDoc.mk [] [])
    [SoCG.mk "A" [(0, "foo")] [], SoCG.mk "B" [(0, "bar")] []]
    (UniDoc.mk [(0, UNode.mk "foo" none (some "A")), (1, UNode.mk "bar" none (some "B"))] [])
    (by rfl)
    (0, UNode.mk "foo" none (some "A")) (by simp)
    (1, UNode.mk "bar" none (some "B")) (by simp)
    (by decide) (by rfl) (by rfl)

/-! ## Claim C8: construction-call inference in the stitcher -/

theorem addInternalCalls_mono (o2n : List (Nat × Nat)) (calls : List (Nat × Nat))
    (st st' : StitchSt) (h : addInternalCalls o2n calls st = Except.ok st')
    (e : Nat × Nat) (he : e ∈ st.finalEdges) : e ∈ st'.finalEdges := by
  induction calls generalizing st with
  | nil =>
    unfold addInternalCalls at h
    have : st' = st := by simpa using h.symm
    rw [this]
    exact he
  | cons c rest ih =>
    unfold addInternalCalls at h
    split at h
    · split at h
      · refine ih _ h ?_
        show e ∈ (match getD st.n2idx _ with
          | some dstCtor => st.finalEdges ++ _ ++ _
          | none => st.finalEdges ++ _)
        split
        · exact List.mem_append_left _ (List.mem_append_left _ he)
        · exact List.mem_append_left _ he
      · simp at h
    · simp at h

theorem addInternalCalls_adds (o2n : List (Nat × Nat)) (calls : List (Nat × Nat))
    (st st' : StitchSt) (h : addInternalCalls o2n calls st = Except.ok st') :
    ∀ c ∈ calls, ∀ ns nd, getD o2n c.1 = some ns → getD o2n c.2 = some nd →
      (ns, nd) ∈ st'.finalEdges ∧
      ∀ dn t, getD st.idx2n nd = some dn →
        getD st.n2idx (dn ++ ".__init__") = some t →
        (ns, t) ∈ st'.finalEdges := by
  induction calls generalizing st with
  | nil => simp
  | cons c0 rest ih =>
    intro c hc ns nd h1 h2
    rcases List.mem_cons.mp hc with hc | hc
    · subst hc
      unfold addInternalCalls at h
      split at h
      next newsrc newdst heq1 heq2 =>
        have hns : ns = newsrc := by rw [heq1] at h1; exact (by simpa using h1 : newsrc = ns).symm
        have hnd : nd = newdst := by rw [heq2] at h2; exact (by simpa using h2 : newdst = nd).symm
        subst hns
        subst hnd
        split at h
        next dstname heqd =>
          constructor
          · apply addInternalCalls_mono o2n rest _ _ h
            show (ns, nd) ∈ (match getD st.n2idx (dstname ++ ".__init__") with
              | some dstCtor => st.finalEdges ++ [(ns, nd)] ++ [(ns, dstCtor)]
              | none => st.finalEdges ++ [(ns, nd)])
            split
            · exact List.mem_append_left _ (List.mem_append_right _ (by simp))
            · exact List.mem_append_right _ (by simp)
          · intro dn t hdn ht
            have hdneq : dn = dstname := by rw [heqd] at hdn; exact (by simpa using hdn : dstname = dn).symm
            subst hdneq
            apply addInternalCalls_mono o2n rest _ _ h
            show (ns, t) ∈ (match getD st.n2idx (dn ++ ".__init__") with
              | some dstCtor => st.finalEdges ++ [(ns, nd)] ++ [(ns, dstCtor)]
              | none => st.finalEdges ++ [(ns, nd)])
            rw [ht]
            exact List.mem_append_right _ (by simp)
        next heqd => simp at h
      next hne => simp at h
    · unfold addInternalCalls at h
      split at h
      · split at h
        · exact ih _ h c hc ns nd h1 h2
        · simp at h
      · simp at h

/-- C8: when the stitcher re-points an `internalCalls` edge `(s, d)`, then
in addition to the edge between the globally renumbered endpoints,
whenever a node named `name(d) + ".__init__"` exists among the
already-assigned global node names (the tables after this document's
namespaces were registered — the edge loop runs after the namespace loop
and never modifies them), a second edge from the renumbered `s` to that
constructor-style node is added to the final edge list. -/
theorem C8_construction_call_edges (st st1 st2 : StitchSt) (cg : StitchCG)
    (o2n : List (Nat × Nat))
    (hmods : addInternalMods (cg.product ++ ":" ++ cg.version) cg.internalMods st [] =
      (st1, o2n))
    (hcalls : addInternalCalls o2n cg.internalCalls st1 = Except.ok st2) :
    addInternalCG st cg = Except.ok (st2, o2n) ∧
    ∀ s d, (s, d) ∈ cg.internalCalls →
      ∀ ns nd, getD o2n s = some ns → getD o2n d = some nd →
      (ns, nd) ∈ st2.finalEdges ∧
      ∀ dn t, getD st1.idx2n nd = some dn →
        getD st1.n2idx (dn ++ ".__init__") = some t →
        (ns, t) ∈ st2.finalEdges := by
  constructor
  · unfold addInternalCG
    rw [hmods]
    simp [hcalls]
  · intro s d hmem ns nd h1 h2
    exact addInternalCalls_adds o2n cg.internalCalls st1 st2 hcalls (s, d) hmem ns nd h1 h2

/-- Witness for C8: `a.f` (old index 2) calls the class `a.C` (old index
0); the name table holds `a.C.__init__` (global id 1), so both the edge
`(2, 0)` and the constructor edge `(2, 1)` appear. -/
theorem C8_construction_call_edges_witness :
    addInternalMods "q:2"
      [("m", [(0, NsEntry.mk "/a/C" none), (1, NsEntry.mk "/a/C.__init__" none),
        (2, NsEntry.mk "/a/f" none)])] stitchInit [] =
      (StitchSt.mk 3 [(0, SNode.mk "a.C" "q:2" none), (1, SNode.mk "a.C.__init__" "q:2" none),
        (2, SNode.mk "a.f" "q:2" none)] []
        [("a.C", 0), ("a.C.__init__", 1), ("a.f", 2)]
        [(0, "a.C"), (1, "a.C.__init__"), (2, "a.f")], [(0, 0), (1, 1), (2, 2)]) ∧
    (2, 0) ∈ (StitchSt.mk 3 [(0, SNode.mk "a.C" "q:2" none),
        (1, SNode.mk "a.C.__init__" "q:2" none), (2, SNode.mk "a.f" "q:2" none)]
        [(2, 0), (2, 1)] [("a.C", 0), ("a.C.__init__", 1), ("a.f", 2)]
        [(0, "a.C"), (1, "a.C.__init__"), (2, "a.f")]).finalEdges ∧
    (2, 1) ∈ (StitchSt.mk 3 [(0, SNode.mk "a.C" "q:2" none),
        (1, SNode.mk "a.C.__init__" "q:2" none), (2, SNode.mk "a.f" "q:2" none)]
        [(2, 0), (2, 1)] [("a.C", 0), ("a.C.__init__", 1), ("a.f", 2)]
        [(0, "a.C"), (1, "a.C.__init__"), (2, "a.f")]).finalEdges := by
  refine ⟨by rfl, ?_, ?_⟩
  · have h := (C8_construction_call_edges stitchInit _ _
      (StitchCG.mk "q" "2" [("m", [(0, NsEntry.mk "/a/C" none),
        (1, NsEntry.mk "/a/C.__init__" none), (2, NsEntry.mk "/a/f" none)])] [] [(2, 0)] [])
      [(0, 0), (1, 1), (2, 2)] (by rfl) (by rfl)).2 2 0 (by simp) 2 0 (by rfl) (by rfl)
    exact h.1
  · have h := (C8_construction_call_edges stitchInit _ _
      (StitchCG.mk "q" "2" [("m", [(0, NsEntry.mk "/a/C" none),
        (1, NsEntry.mk "/a/C.__init__" none), (2, NsEntry.mk "/a/f" none)])] [] [(2, 0)] [])
      [(0, 0), (1, 1), (2, 2)] (by rfl) (by rfl)).2 2 0 (by simp) 2 0 (by rfl) (by rfl)
    exact h.2 "a.C" 1 (by rfl) (by rfl)

/-! ## Claim C9: denylisted external calls are ignored -/

theorem buildExtMaps_bl_mono (stdPres bugPres strSufs : List String)
    (exts : List (Nat × String)) (bl : Finset Nat) (o2e : List (Nat × List String))
    (i : Nat) (hi : i ∈ bl) :
    i ∈ (buildExtMaps stdPres bugPres strSufs exts bl o2e).1 := by
  induction exts generalizing bl o2e with
  | nil => exact hi
  | cons kv rest ih =>
    unfold buildExtMaps
    apply ih
    by_cases hb : nsBlacklisted stdPres bugPres kv.2
    · rw [if_pos hb]
      exact Finset.mem_insert_of_mem hi
    · rw [if_neg hb]
      exact hi

theorem buildExtMaps_bl_mem (stdPres bugPres strSufs : List String)
    (exts : List (Nat × String)) (bl : Finset Nat) (o2e : List (Nat × List String))
    (i : Nat) (ns : String) (hmem : (i, ns) ∈ exts)
    (hcond : nsBlacklisted stdPres bugPres ns = true) :
    i ∈ (buildExtMaps stdPres bugPres strSufs exts bl o2e).1 := by
  induction exts generalizing bl o2e with
  | nil => simp at hmem
  | cons kv rest ih =>
    rcases List.mem_cons.mp hmem with hkv | hkv
    · unfold buildExtMaps
      apply buildExtMaps_bl_mono
      have h2 : nsBlacklisted stdPres bugPres kv.2 = true := by rw [← hkv]; exact hcond
      rw [if_pos h2]
      have hik : i = kv.1 := by rw [← hkv]
      rw [hik]
      exact Finset.mem_insert_self _ _
    · unfold buildExtMaps
      exact ih _ _ hkv

theorem tryOptions_counters (n2idx : List (String × Nat)) (newsrc : Nat)
    (options : List String) (rst : ResolveSt) (found : Bool) :
    (tryOptions n2idx newsrc options rst found).1.missedExternals = rst.missedExternals ∧
    (tryOptions n2idx newsrc options rst found).1.ignoredExternals = rst.ignoredExternals := by
  induction options generalizing rst found with
  | nil => exact ⟨rfl, rfl⟩
  | cons name rest ih =>
    unfold tryOptions
    cases hn : getD n2idx name with
    | some newdst => exact ih _ _
    | none => exact ih _ _

theorem tryDnames_counters (n2idx : List (String × Nat)) (oracle : String → Option String)
    (newsrc : Nat) (dstnames : List String) (rst : ResolveSt) (found : Bool) :
    (tryDnames n2idx oracle newsrc dstnames rst found).1.missedExternals =
      rst.missedExternals ∧
    (tryDnames n2idx oracle newsrc dstnames rst found).1.ignoredExternals =
      rst.ignoredExternals := by
  induction dstnames generalizing rst found with
  | nil => exact ⟨rfl, rfl⟩
  | cons dname rest ih =>
    unfold tryDnames
    split
    next options memo' heq =>
      split
      next rst2 found' heq2 =>
        obtain ⟨hm, hi⟩ := ih rst2 found'
        rw [hm, hi]
        have hcnt := tryOptions_counters n2idx newsrc options
          (ResolveSt.mk rst.finalEdges memo' rst.foundExternals rst.missedExternals
            rst.ignoredExternals) found
        rw [heq2] at hcnt
        exact hcnt

theorem processExternalCall_ignored (bl : Finset Nat) (o2e : List (Nat × List String))
    (old2new : List (Nat × Nat)) (n2idx : List (String × Nat))
    (oracle : String → Option String) (call : Nat × Nat) (rst rst' : ResolveSt)
    (h : processExternalCall bl o2e old2new n2idx oracle call rst = Except.ok rst') :
    rst'.ignoredExternals = rst.ignoredExternals + (if call.2 ∈ bl then 1 else 0) := by
  unfold processExternalCall at h
  by_cases hbl : call.2 ∈ bl
  · rw [if_pos hbl] at h
    have hr : ResolveSt.mk rst.finalEdges rst.n2fqn rst.foundExternals
        rst.missedExternals (rst.ignoredExternals + 1) = rst' := by simpa using h
    rw [← hr, if_pos hbl]
  · rw [if_neg hbl] at h
    rw [if_neg hbl]
    split at h
    · simp at h
    next newsrc h1 =>
      split at h
      · have hr : rst = rst' := by simpa using h
        rw [← hr]
        exact (Nat.add_zero _).symm
      next dstnames h2 =>
        have hcnt := tryDnames_counters n2idx oracle newsrc dstnames rst false
        split at h
        next rst1 heq =>
          have hr : rst1 = rst' := by simpa using h
          rw [← hr]
          rw [heq] at hcnt
          simpa using hcnt.2
        next rst1 heq =>
          have hr : ResolveSt.mk rst1.finalEdges rst1.n2fqn rst1.foundExternals
              (rst1.missedExternals + 1) rst1.ignoredExternals = rst' := by simpa using h
          rw [← hr]
          rw [heq] at hcnt
          simpa using hcnt.2

theorem processExternalCalls_ignored (bl : Finset Nat) (o2e : List (Nat × List String))
    (old2new : List (Nat × Nat)) (n2idx : List (String × Nat))
    (oracle : String → Option String) (calls : List (Nat × Nat)) (rst rst' : ResolveSt)
    (h : processExternalCalls bl o2e old2new n2idx oracle calls rst = Except.ok rst') :
    rst'.ignoredExternals = rst.ignoredExternals +
      calls.countP (fun c => decide (c.2 ∈ bl)) := by
  induction calls generalizing rst with
  | nil =>
    unfold processExternalCalls at h
    have : rst = rst' := by simpa using h
    rw [← this]
    simp
  | cons c rest ih =>
    unfold processExternalCalls at h
    cases h1 : processExternalCall bl o2e old2new n2idx oracle c rst with
    | error e => rw [h1] at h; simp at h
    | ok rst1 =>
      rw [h1] at h
      have hstep := processExternalCall_ignored bl o2e old2new n2idx oracle c rst rst1 h1
      have htail := ih _ h
      rw [htail, hstep, List.countP_cons]
      by_cases hbl : c.2 ∈ bl
      · simp [hbl]
        omega
      · simp [hbl]

/-- C9: every `externalCalls` edge whose callee index carries a namespace
matching the standard-library denylist or the known-buggy substrings is
dropped without producing any edge and is counted as ignored only: the
post-state keeps the edge list, memo, found count and missed count
unchanged and bumps the ignored count; over a whole call list the ignored
count grows by exactly the number of denylisted calls. -/
theorem C9_denylisted_calls_ignored (stdPres bugPres strSufs : List String)
    (exts : List (Nat × String)) (bl : Finset Nat) (o2e : List (Nat × List String))
    (hbuild : buildExtMaps stdPres bugPres strSufs exts ∅ [] = (bl, o2e))
    (old2new : List (Nat × Nat)) (n2idx : List (String × Nat))
    (oracle : String → Option String) (call : Nat × Nat) (ns : String) (rst : ResolveSt)
    (hmem : (call.2, ns) ∈ exts) (hcond : nsBlacklisted stdPres bugPres ns = true) :
    call.2 ∈ bl ∧
    processExternalCall bl o2e old2new n2idx oracle call rst =
      Except.ok (ResolveSt.mk rst.finalEdges rst.n2fqn rst.foundExternals
        rst.missedExternals (rst.ignoredExternals + 1)) ∧
    (∀ calls rst', processExternalCalls bl o2e old2new n2idx oracle calls rst =
        Except.ok rst' →
      rst'.ignoredExternals = rst.ignoredExternals +
        calls.countP (fun c => decide (c.2 ∈ bl))) := by
  have hbl : call.2 ∈ bl := by
    have := buildExtMaps_bl_mem stdPres bugPres strSufs exts ∅ [] call.2 ns hmem hcond
    rw [hbuild] at this
    exact this
  refine ⟨hbl, ?_, ?_⟩
  · unfold processExternalCall
    rw [if_pos hbl]
  · intro calls rst' h
    exact processExternalCalls_ignored bl o2e old2new n2idx oracle calls rst rst' h

/-- Witness for C9: a single external namespace `//.builtin//print` is
denylisted; the call `(0, 7)` touching it is ignored and contributes no
edge and no found/missed count. -/
theorem C9_denylisted_calls_ignored_witness :
    buildExtMaps ["os."] ["numpy.distutils"] [] [(7, "//.builtin//print")] ∅ [] =
      ({7}, [(7, ["print"])]) ∧
    processExternalCall {7} [(7, ["print"])] [] [] (fun _ => none) (0, 7)
        (ResolveSt.mk [] [] 0 0 0) =
      Except.ok (ResolveSt.mk [] [] 0 0 1) := by
  constructor
  · rfl
  · have h := C9_denylisted_calls_ignored ["os."] ["numpy.distutils"] []
      [(7, "//.builtin//print")] {7} [(7, ["print"])] (by rfl) [] [] (fun _ => none)
      (0, 7) "//.builtin//print" (ResolveSt.mk [] [] 0 0 0) (by simp) (by rfl)
    exact h.2.1

/-! ## Claim C5: bridge-augmentation idempotence (corrected) -/

theorem endsPar_append (s : String) : (s ++ "()").data.reverse.take 2 = [')', '('] := by
  rw [String.data_append, List.reverse_append]
  rfl

theorem attachBridge_idem (sb : Bridge) (o : Option (List Bridge)) :
    attachBridge sb (attachBridge sb o) = attachBridge sb o := by
  cases o with
  | none => simp [attachBridge]
  | some old =>
    by_cases h : sb ∈ old
    · simp [attachBridge, h]
    · simp [attachBridge, h]

theorem map_idem {α : Type} (f : α → α) (l : List α) (h : ∀ x, f (f x) = f x) :
    (l.map f).map f = l.map f := by
  induction l with
  | nil => rfl
  | cons a l ih => simp only [List.map_cons, h, ih]

theorem augNsInternal_idem (pyname : String) (sb : Bridge) (n : NsEntry) :
    augNsInternal pyname sb (augNsInternal pyname sb n) = augNsInternal pyname sb n := by
  by_cases hm : n.ns = pyname ∨ n.ns = pyname ++ "()"
  · have hinner : augNsInternal pyname sb n =
        NsEntry.mk (if n.ns.data.reverse.take 2 = [')', '('] then n.ns else n.ns ++ "()")
          (attachBridge sb n.bridges) := by
      unfold augNsInternal
      rw [if_pos hm]
    rw [hinner]
    by_cases he : n.ns.data.reverse.take 2 = [')', '(']
    · rw [if_pos he]
      unfold augNsInternal
      rw [if_pos (show (NsEntry.mk n.ns (attachBridge sb n.bridges)).ns = pyname ∨
        (NsEntry.mk n.ns (attachBridge sb n.bridges)).ns = pyname ++ "()" from hm)]
      rw [if_pos (show (NsEntry.mk n.ns
        (attachBridge sb n.bridges)).ns.data.reverse.take 2 = [')', '('] from he)]
      rw [attachBridge_idem]
    · rw [if_neg he]
      have hleft : n.ns = pyname := by
        rcases hm with h | h
        · exact h
        · exfalso
          apply he
          rw [h]
          exact endsPar_append pyname
      unfold augNsInternal
      rw [if_pos (Or.inr (show (NsEntry.mk (n.ns ++ "()")
        (attachBridge sb n.bridges)).ns = pyname ++ "()" by rw [hleft]))]
      rw [if_pos (show (NsEntry.mk (n.ns ++ "()")
        (attachBridge sb n.bridges)).ns.data.reverse.take 2 = [')', '('] from
        endsPar_append n.ns)]
      rw [attachBridge_idem]
  · unfold augNsInternal
    rw [if_neg hm, if_neg hm]

theorem findUpdNs_stable (isMatch : NsEntry → Bool) (upd : NsEntry → NsEntry)
    (him : ∀ n, isMatch (upd n) = isMatch n) (hup : ∀ n, upd (upd n) = upd n)
    (l l' : List (Nat × NsEntry)) (h : findUpdNs isMatch upd l = some l') :
    findUpdNs isMatch upd l' = some l' := by
  induction l generalizing l' with
  | nil => simp [findUpdNs] at h
  | cons p rest ih =>
    unfold findUpdNs at h
    by_cases hmatch : isMatch p.2
    · rw [if_pos hmatch] at h
      have hl' : (p.1, upd p.2) :: rest = l' := by simpa using h
      rw [← hl']
      unfold findUpdNs
      rw [if_pos (show isMatch ((p.1, upd p.2)).2 = true by rw [him]; exact hmatch)]
      rw [hup]
    · rw [if_neg hmatch] at h
      cases hrest : findUpdNs isMatch upd rest with
      | none => rw [hrest] at h; simp at h
      | some r' =>
        rw [hrest] at h
        have hl' : p :: r' = l' := by simpa using h
        rw [← hl']
        unfold findUpdNs
        rw [if_neg hmatch, ih r' hrest]
        rfl

theorem updModExternal_stable (isMatch : NsEntry → Bool) (sb : Bridge)
    (him : ∀ n, isMatch (augNsExternal sb n) = isMatch n)
    (m m' : ModEntry) (h : updModExternal isMatch sb m = some m') :
    updModExternal isMatch sb m' = some m' := by
  unfold updModExternal at h ⊢
  cases hfind : findUpdNs isMatch (augNsExternal sb) m.namespaces with
  | none => rw [hfind] at h; simp at h
  | some ns' =>
    rw [hfind] at h
    have hm' : ModEntry.mk m.sourceFile ns' = m' := by simpa using h
    rw [← hm']
    have hstable := findUpdNs_stable isMatch (augNsExternal sb) him
      (fun n => by unfold augNsExternal; simp [attachBridge_idem]) m.namespaces ns' hfind
    rw [show (ModEntry.mk m.sourceFile ns').namespaces = ns' from rfl, hstable]
    rfl

theorem updModsExternal_stable (isMatch : NsEntry → Bool) (sb : Bridge)
    (him : ∀ n, isMatch (augNsExternal sb n) = isMatch n)
    (mods mods' : List (String × ModEntry)) (f : Bool)
    (h : updModsExternal isMatch sb mods = (mods', f)) :
    updModsExternal isMatch sb mods' = (mods', f) := by
  induction mods generalizing mods' f with
  | nil =>
    unfold updModsExternal at h
    have h1 : mods' = [] := by
      have := congrArg Prod.fst h
      simpa using this.symm
    have h2 : f = false := by
      have := congrArg Prod.snd h
      simpa using this.symm
    rw [h1, h2]
    rfl
  | cons m rest ih =>
    unfold updModsExternal at h
    cases hrest : updModsExternal isMatch sb rest with
    | mk rest' fr =>
      rw [hrest] at h
      cases hmod : updModExternal isMatch sb m.2 with
      | some m1 =>
        rw [hmod] at h
        have hm : (m.1, m1) :: rest' = mods' := by
          have := congrArg Prod.fst h
          simpa using this
        have hf : f = true := by
          have := congrArg Prod.snd h
          simpa using this.symm
        rw [← hm, hf]
        unfold updModsExternal
        rw [ih rest' fr hrest]
        rw [show ((m.1, m1) : String × ModEntry).2 = m1 from rfl]
        rw [updModExternal_stable isMatch sb him m.2 m1 hmod]
      | none =>
        rw [hmod] at h
        have hm : m :: rest' = mods' := by
          have := congrArg Prod.fst h
          simpa using this
        have hf : f = fr := by
          have := congrArg Prod.snd h
          simpa using this.symm
        rw [← hm, hf]
        unfold updModsExternal
        rw [ih rest' fr hrest, hmod]

/-- C5 counterexample: external bridge `//m//x` (top-level `m` mapped to a
package, squashed caller name `x` with a single dotted component) against
an empty document.  The first application synthesizes `/m/()`; on
re-application its cleaned name `m.()` matches neither `x` nor `x()`, so a
second node is synthesized and the document differs — augmentation is not
idempotent. -/
theorem C5_resynthesis_counterexample :
    processExternalBridge [("m", "p")] (RawBridge.mk "//m//x" "c" "L")
        (processExternalBridge [("m", "p")] (RawBridge.mk "//m//x" "c" "L")
          (PcgDoc.mk 0 [])) ≠
      processExternalBridge [("m", "p")] (RawBridge.mk "//m//x" "c" "L")
        (PcgDoc.mk 0 []) := by
  decide

/-- C5 (amended): internal-bridge augmentation is idempotent — the call
marker is appended at most once and the metadata entry is deduplicated —
and external-bridge augmentation is idempotent whenever the bridge is
dropped (unknown top-level import) or some namespace matches the caller
name, the attachment path.  When no namespace matches, a node is
synthesized, and re-application can synthesize a second node (see the
counterexample). -/
theorem C5_augmentation_idempotent (b : RawBridge) (cg : PcgDoc)
    (tl2pkg : List (String × String)) :
    processInternalBridge b (processInternalBridge b cg) = processInternalBridge b cg ∧
    (getD tl2pkg (pynameToTl b.pyname) = none →
      processExternalBridge tl2pkg b (processExternalBridge tl2pkg b cg) =
        processExternalBridge tl2pkg b cg) ∧
    (∀ pkg, getD tl2pkg (pynameToTl b.pyname) = some pkg →
      (updModsExternal (extMatch ((tl2pkg.filter (fun p => p.2 = pkg)).map (·.1))
          (pynameToTl b.pyname) (pynameToSquash b.pyname))
        (Bridge.mk b.cfunc b.library) cg.internal).2 = true →
      processExternalBridge tl2pkg b (processExternalBridge tl2pkg b cg) =
        processExternalBridge tl2pkg b cg) := by
  refine ⟨?_, ?_, ?_⟩
  · unfold processInternalBridge
    congr 1
    apply map_idem
    intro m
    exact congrArg (fun ns => (m.1, ModEntry.mk m.2.sourceFile ns))
      (map_idem _ m.2.namespaces
        (fun p => congrArg (fun x => (p.1, x))
          (augNsInternal_idem b.pyname (Bridge.mk b.cfunc b.library) p.2)))
  · intro hnone
    unfold processExternalBridge
    rw [hnone]
  · intro pkg hpkg hfound
    have hiM : ∀ n, extMatch ((tl2pkg.filter (fun p => p.2 = pkg)).map (·.1))
        (pynameToTl b.pyname) (pynameToSquash b.pyname)
        (augNsExternal (Bridge.mk b.cfunc b.library) n) =
      extMatch ((tl2pkg.filter (fun p => p.2 = pkg)).map (·.1))
        (pynameToTl b.pyname) (pynameToSquash b.pyname) n := fun n => rfl
    have hred : ∀ d : PcgDoc, processExternalBridge tl2pkg b d =
        processExternalBridgeCore ((tl2pkg.filter (fun p => p.2 = pkg)).map (·.1))
          (pynameToTl b.pyname) (pynameToSquash b.pyname)
          (Bridge.mk b.cfunc b.library) d := by
      intro d
      unfold processExternalBridge
      rw [hpkg]
    cases hupd : updModsExternal (extMatch ((tl2pkg.filter (fun p => p.2 = pkg)).map (·.1))
        (pynameToTl b.pyname) (pynameToSquash b.pyname))
        (Bridge.mk b.cfunc b.library) cg.internal with
    | mk internal' f =>
      have hf : f = true := by
        rw [hupd] at hfound
        exact hfound
      subst hf
      have honce : processExternalBridge tl2pkg b cg = PcgDoc.mk cg.numNodes internal' := by
        rw [hred]
        unfold processExternalBridgeCore
        rw [hupd]
      rw [honce, hred]
      unfold processExternalBridgeCore
      rw [show (PcgDoc.mk cg.numNodes internal').internal = internal' from rfl]
      rw [updModsExternal_stable _ _ hiM cg.internal internal' true hupd]

/-- Witness for C5 (amended): an internal bridge onto namespace `m.x` and
an external bridge whose cleaned namespace `/m/x` matches the squashed
caller name `m.x`; both re-applications are no-ops. -/
theorem C5_augmentation_idempotent_witness :
    getD [("m", "p")] (pynameToTl "//m//m.x") = some "p" ∧
    (updModsExternal (extMatch (([("m", "p")].filter (fun p => p.2 = "p")).map (·.1))
        (pynameToTl "//m//m.x") (pynameToSquash "//m//m.x"))
      (Bridge.mk "c" "L")
      [("mod", ModEntry.mk "f.py" [(0, NsEntry.mk "/m/x" none)])]).2 = true ∧
    processExternalBridge [("m", "p")] (RawBridge.mk "//m//m.x" "c" "L")
        (processExternalBridge [("m", "p")] (RawBridge.mk "//m//m.x" "c" "L")
          (PcgDoc.mk 1 [("mod", ModEntry.mk "f.py" [(0, NsEntry.mk "/m/x" none)])])) =
      processExternalBridge [("m", "p")] (RawBridge.mk "//m//m.x" "c" "L")
        (PcgDoc.mk 1 [("mod", ModEntry.mk "f.py" [(0, NsEntry.mk "/m/x" none)])]) ∧
    processInternalBridge (RawBridge.mk "m.x" "c" "L")
        (processInternalBridge (RawBridge.mk "m.x" "c" "L")
          (PcgDoc.mk 1 [("mod", ModEntry.mk "f.py" [(0, NsEntry.mk "m.x" none)])])) =
      processInternalBridge (RawBridge.mk "m.x" "c" "L")
        (PcgDoc.mk 1 [("mod", ModEntry.mk "f.py" [(0, NsEntry.mk "m.x" none)])]) := by
  refine ⟨by rfl, by decide, ?_, ?_⟩
  · exact (C5_augmentation_idempotent (RawBridge.mk "//m//m.x" "c" "L")
      (PcgDoc.mk 1 [("mod", ModEntry.mk "f.py" [(0, NsEntry.mk "/m/x" none)])])
      [("m", "p")]).2.2 "p" (by rfl) (by decide)
  · exact (C5_augmentation_idempotent (RawBridge.mk "m.x" "c" "L")
      (PcgDoc.mk 1 [("mod", ModEntry.mk "f.py" [(0, NsEntry.mk "m.x" none)])])
      [("m", "p")]).1

/-! ## Claim C10: identity validation in the detector constructor -/

/-- C10: constructing a `ReachabilityDetector` with a package identity
containing neither `:` nor `/` raises `ValueError` before any graph is
read (the error is independent of the graph document); an identity
containing `:` is accepted as-is; an identity containing `/` but no `:`
is accepted and normalized by appending `:1`. -/
theorem C10_identity_validation (package : String) :
    (¬ ':' ∈ package.data → ¬ '/' ∈ package.data →
      ∀ doc : UniDoc, reachRun doc package =
        Except.error "Unrecognized package naming format") ∧
    (':' ∈ package.data → checkPackage package = Except.ok (package, true)) ∧
    (¬ ':' ∈ package.data → '/' ∈ package.data →
      checkPackage package = Except.ok (package ++ ":1", false)) := by
  refine ⟨?_, ?_, ?_⟩
  · intro h1 h2 doc
    unfold reachRun checkPackage
    rw [if_neg h1, if_neg h2]
    rfl
  · intro h1
    unfold checkPackage
    rw [if_pos h1]
  · intro h1 h2
    unfold checkPackage
    rw [if_neg h1, if_pos h2]

/-- Witness for C10: `abc` is rejected regardless of the graph, and
`owner/repo` is normalized to `owner/repo:1`. -/
theorem C10_identity_validation_witness :
    reachRun (UniDoc.mk [] []) "abc" = Except.error "Unrecognized package naming format" ∧
    checkPackage "owner/repo" = Except.ok ("owner/repo:1", false) := by
  constructor
  · exact (C10_identity_validation "abc").1 (by decide) (by decide) (UniDoc.mk [] [])
  · exact (C10_identity_validation "owner/repo").2.2 (by decide) (by decide)

end PyXray
